import Mathlib

/-!
Verification development for the randomized min-cut core of the graph
library: the weighted selector (`Selector`), the contraction overlay and
the Karger–Stein drivers of `kargerr.go`, the iteration partitioning of
`FastRandMinCutPar`, and `Nodes.BuildUndirected` of `node.go`.

Modelling conventions:
* Go `float64` weights are embedded as exact rationals (`ℚ`).
* Go's global `rand.Float64()` stream is an explicit parameter
  `rs : ℕ → ℚ` together with a position counter that advances by one on
  every `Select` call, matching the single draw a `Select` performs.
* Go loops that are not structurally bounded carry explicit fuel; a
  `none` result models a run that panics (out-of-range index or nil
  edge lookup) or that exceeds the fuel.  All functional theorems are
  stated conditionally on a `some` result.
* Mutation is embedded as explicit state passing; Go arrays indexed by
  node id become functions `ℕ → _` updated with `Function.update`.
-/

/-- Error values of the package: `SelectorEmpty`, `notFound`,
`NodeIDOutOfRange` (referenced by `node.go`) and `alreadyConnected`
(`edge.go`). -/
inductive GError where
  | selectorEmpty : GError
  | targetNotFound : GError
  | nodeIDOutOfRange : GError
  | alreadyConnected : GError
deriving DecidableEq, Repr

/-- A `WeightedItem` (selector source): `Index` is the caller-supplied
integer, `Weight` the selection weight, `total` the implicit-tree
subtree total. -/
structure WeightedItem where
  Index : ℤ
  Weight : ℚ
  total : ℚ
deriving DecidableEq, Repr

instance : Inhabited WeightedItem := ⟨⟨0, 0, 0⟩⟩

/-- A `Selector` is a flat slice of weighted items (selector source). -/
abbrev Selector := List WeightedItem

/-- First phase of `Selector.Init`: `s[i].total = s[i].Weight` for all `i`. -/
def setTotals (s : Selector) : Selector :=
  s.map fun it => { it with total := it.Weight }

/-- One step of the accumulation loop of `Selector.Init`:
`s[(i+1)>>1-1].total += s[i].total`. -/
def accumStep (t : Selector) (i : ℕ) : Selector :=
  let p := (i + 1) / 2 - 1
  let tp := t.getD p default
  let ti := t.getD i default
  t.set p { tp with total := tp.total + ti.total }

/-- The accumulation loop of `Selector.Init`, running
`for i := k; i > 0; i--`. -/
def accumFrom (t : Selector) (k : ℕ) : Selector :=
  if hk : k = 0 then t else accumFrom (accumStep t k) (k - 1)
termination_by k
decreasing_by omega

/-- `Selector.Init` of the selector source: set each total to the item's
weight, then fold child totals into parents from the last index down. -/
def Selector.Init (s : Selector) : Selector :=
  accumFrom (setTotals s) (s.length - 1)

/-- The descent loop of `Selector.Select`.  `i` is the 1-based tree
position; a read of an out-of-range index (a Go panic) or fuel
exhaustion yields `none`.  Mirrors: subtract `s[i-1].Weight`, stop when
the remainder is `≤ 0`, otherwise descend to `2i` or `2i+1` according
to the left child's total. -/
def selDescend (s : Selector) (fuel : ℕ) (r : ℚ) (i : ℕ) : Option ℕ :=
  if hf : fuel = 0 then none
  else
    match s[i - 1]? with
    | none => none
    | some it =>
      let r1 := r - it.Weight
      if r1 ≤ 0 then some i
      else
        match s[2 * i - 1]? with
        | none => none
        | some lc =>
          if r1 > lc.total then selDescend s (fuel - 1) (r1 - lc.total) (2 * i + 1)
          else selDescend s (fuel - 1) r1 (2 * i)
termination_by fuel
decreasing_by all_goals omega

/-- The 1-based positions visited by the ancestor update loop of
`Selector.Select` (`for i > 0 { ...; i >>= 1 }`): `i, i/2, ..., 1`. -/
def ancChain (i : ℕ) : List ℕ :=
  if hi : i = 0 then [] else i :: ancChain (i / 2)
termination_by i
decreasing_by omega

/-- The ancestor update loop of `Selector.Select`:
`for i > 0 { s[i-1].total -= w; i >>= 1 }`. -/
def propagate (s : Selector) (w : ℚ) (i : ℕ) : Selector :=
  if hi : i = 0 then s
  else
    let it := s.getD (i - 1) default
    propagate (s.set (i - 1) { it with total := it.total - w }) w (i / 2)
termination_by i
decreasing_by omega

/-- `Selector.Select`, parametrised by the value `u` drawn from
`rand.Float64()`.  Result: `none` for a panicking run, otherwise
`(index, updated selector, optional error)`.  On an empty root total it
returns `-1`, the unchanged selector and `SelectorEmpty`; on success the
chosen item's weight is zeroed and the delta propagated to its
ancestors' totals. -/
def Selector.Select (s : Selector) (u : ℚ) : Option (ℤ × Selector × Option GError) :=
  match s[0]? with
  | none => none
  | some it0 =>
    if it0.total = 0 then some (-1, s, some GError.selectorEmpty)
    else
      match selDescend s (s.length + 2) (it0.total * u) 1 with
      | none => none
      | some i =>
        let it := s.getD (i - 1) default
        let s1 := s.set (i - 1) { it with Weight := 0 }
        some (it.Index, propagate s1 it.Weight i, none)

/-- An edge of the undirected graph: stable id, endpoint node ids
(`u` is the `Tail`, `v` is the `Head`, as in `edge.go`), and weight. -/
structure GEdge where
  eid : ℤ
  u : ℕ
  v : ℕ
  weight : ℚ
deriving DecidableEq, Repr

/-- Modelled from the spec: the `Undirected` graph type (its source file
is not in the repository snapshot); it owns a node table and a compact
edge array, with `Order` the node count, `Size` the edge count and
`Edge(id)` an id-to-edge lookup. -/
structure UGraph where
  nodes : List ℕ
  edges : List GEdge
deriving DecidableEq, Repr

/-- Modelled from the spec: `Order` is the node count. -/
def UGraph.Order (g : UGraph) : ℕ := g.nodes.length

/-- Modelled from the spec: `Size` is the edge count. -/
def UGraph.Size (g : UGraph) : ℕ := g.edges.length

/-- Modelled from the spec: `Edge(id)` looks an edge up by id. -/
def UGraph.findEdge (g : UGraph) (id : ℤ) : Option GEdge :=
  g.edges.find? fun e => decide (e.eid = id)

/-- Well-formedness of a graph value: distinct node ids, edge endpoints
present in the node table, distinct edge ids. -/
def UGraph.WF (g : UGraph) : Prop :=
  g.nodes.Nodup ∧ (∀ e ∈ g.edges, e.u ∈ g.nodes ∧ e.v ∈ g.nodes) ∧
    (g.edges.map GEdge.eid).Nodup

instance (g : UGraph) : Decidable g.WF := by
  unfold UGraph.WF; infer_instance

/-- The contraction overlay of `kargerR`: the `ind []super` array
(fields `label` and `nodes` of `super`) as functions of the node id,
together with the supernode counter `order`. -/
structure Contraction where
  label : ℕ → ℤ
  nodes : ℕ → Option (List ℕ)
  order : ℕ

/-- The label table after `kargerR.init`: every slot `-1`, then each
graph node labelled by its own id. -/
def initLabel (g : UGraph) : ℕ → ℤ :=
  g.nodes.foldl (fun f n => Function.update f n (n : ℤ)) fun _ => (-1 : ℤ)

/-- The contraction overlay after `kargerR.init`. -/
def initContraction (g : UGraph) : Contraction :=
  { label := initLabel g, nodes := fun _ => none, order := g.Order }

/-- The full `kargerR` context: overlay, selector, and the best cut
fields `c` and `w`. -/
structure KargerR where
  ov : Contraction
  sel : Selector
  c : List GEdge
  w : ℚ

/-- `newKargerR` followed by `kargerR.init`: fresh labels, no member
lists, selector rebuilt from the graph's edges and initialised. -/
def kargerInit (g : UGraph) : KargerR :=
  { ov := initContraction g
    sel := Selector.Init (g.edges.map fun e => { Index := e.eid, Weight := e.weight, total := 0 })
    c := []
    w := 0 }

/-- `kargerR.clone`: deep copy of the overlay and selector, sharing the
graph; the `c`/`w` fields are zero values in the clone. -/
def cloneR (st : KargerR) : KargerR :=
  { ov := st.ov, sel := st.sel, c := [], w := 0 }

/-- Length of a member list, with `len(nil) = 0`. -/
def memSize (m : Option (List ℕ)) : ℕ :=
  match m with
  | none => 0
  | some l => l.length

/-- The merge body of `randContract`/`randCompact` after the
weighted-union swap: `hid`/`tid` are the (possibly swapped) head and
tail node ids.  `hl`/`tl` are their labels; the absorbing member list is
created or extended exactly as in the source, then every member of the
absorbing list is relabelled with a fresh read of `ind[hid].label`, and
`order` is decremented. -/
def mergeParts (ov : Contraction) (hid tid : ℕ) : Contraction :=
  let hl := (ov.label hid).toNat
  let tl := (ov.label tid).toNat
  let mem1 := if ov.nodes hl = none then Function.update ov.nodes hl (some [hid]) else ov.nodes
  let mem2 :=
    if mem1 tl = none then
      Function.update mem1 hl (some ((mem1 hl).getD [] ++ [tid]))
    else
      Function.update (Function.update mem1 hl (some ((mem1 hl).getD [] ++ (mem1 tl).getD []))) tl none
  let members := (mem2 hl).getD []
  { label := members.foldl (fun f i => Function.update f i (f hid)) ov.label
    nodes := mem2
    order := ov.order - 1 }

/-- One merge of edge `e`: heads and tails start as `e.Head()`/`e.Tail()`
and are swapped when the head label's member list is shorter than the
tail label's. -/
def mergeEdge (ov : Contraction) (e : GEdge) : Contraction :=
  if memSize (ov.nodes (ov.label e.v).toNat) < memSize (ov.nodes (ov.label e.u).toNat) then
    mergeParts ov e.u e.v
  else
    mergeParts ov e.v e.u

/-- `t := ceil(order/sqrt2)` computed exactly: the least `m ≤ n` with
`n^2 ≤ 2*m^2`.  For every `n ≥ 1` this is the integer ceiling of
`n / √2` (which is never an integer), so `contractTarget` below agrees
with the source's `int(math.Ceil(float64(order)/sqrt2 + 1))`. -/
def ceilDivSqrt2 (n : ℕ) : ℕ :=
  (((List.range (n + 1)).find? fun m => decide (n ^ 2 ≤ 2 * m ^ 2)).getD n)

/-- The contraction target of `kargerR.fastRandMinCut`:
`int(math.Ceil(float64(order)/sqrt2 + 1))`. -/
def contractTarget (n : ℕ) : ℕ := ceilDivSqrt2 n + 1

/-- `kargerR.randContract(k)`: while `order > k`, draw an edge id from
the selector (one random value per draw), break on a selector error,
look the edge up, skip contraction loops, otherwise merge.  `none`
models a panicking run (failed edge lookup) or fuel exhaustion. -/
def randContract (g : UGraph) (rs : ℕ → ℚ) (k : ℕ) (fuel : ℕ) (st : KargerR) (pos : ℕ) :
    Option (KargerR × ℕ) :=
  if hf : fuel = 0 then none
  else if ¬ st.ov.order > k then some (st, pos)
  else
    match st.sel.Select (rs pos) with
    | none => none
    | some (id, sel1, err) =>
      match err with
      | some _ => some ({ st with sel := sel1 }, pos + 1)
      | none =>
        match g.findEdge id with
        | none => none
        | some e =>
          if st.ov.label e.v = st.ov.label e.u then
            randContract g rs k (fuel - 1) { st with sel := sel1 } (pos + 1)
          else
            randContract g rs k (fuel - 1) { st with ov := mergeEdge st.ov e, sel := sel1 } (pos + 1)
termination_by fuel
decreasing_by all_goals omega

/-- The non-loop edges of `g` under the overlay's labelling: exactly the
edges collected by the rebuild loop at the end of `randCompact`. -/
def cutEdges (g : UGraph) (ov : Contraction) : List GEdge :=
  g.edges.filter fun e => decide (¬ ov.label e.v = ov.label e.u)

/-- The weight accumulated by the rebuild loop of `randCompact`. -/
def cutWeight (g : UGraph) (ov : Contraction) : ℚ :=
  ((cutEdges g ov).map GEdge.weight).sum

/-- `kargerR.randCompact(k)`: the same contraction loop as
`randContract`, then rebuild `c` as the non-loop edges and `w` as their
weight sum. -/
def randCompact (g : UGraph) (rs : ℕ → ℚ) (k : ℕ) (fuel : ℕ) (st : KargerR) (pos : ℕ) :
    Option (KargerR × ℕ) :=
  match randContract g rs k fuel st pos with
  | none => none
  | some (st1, p1) => some ({ st1 with c := cutEdges g st1.ov, w := cutWeight g st1.ov }, p1)

/-- `kargerR.fastRandMinCut`: at `order ≤ 6` run `randCompact(2)`;
otherwise contract both the context and a clone (taken first) down to
`contractTarget order`, recurse on each in sequence, and adopt the child
with the smaller `w`. -/
def KargerR.fastRandMinCut (g : UGraph) (rs : ℕ → ℚ) (fuel : ℕ) (st : KargerR) (pos : ℕ) :
    Option (KargerR × ℕ) :=
  if hf : fuel = 0 then none
  else if st.ov.order ≤ 6 then randCompact g rs 2 fuel st pos
  else
    let t := contractTarget st.ov.order
    match randContract g rs t fuel st pos with
    | none => none
    | some (s0, p0) =>
      match KargerR.fastRandMinCut g rs (fuel - 1) s0 p0 with
      | none => none
      | some (s0f, p0f) =>
        match randContract g rs t fuel (cloneR st) p0f with
        | none => none
        | some (s1, p1) =>
          match KargerR.fastRandMinCut g rs (fuel - 1) s1 p1 with
          | none => none
          | some (s1f, p1f) => some (if s0f.w < s1f.w then s0f else s1f, p1f)
termination_by fuel
decreasing_by all_goals omega

/-- The iteration loop of `FastRandMinCut`: the context `st` is carried
from one iteration into the next (it is initialised once, before the
loop), and the best `(c, w)` is tracked with `w` starting at `+Inf`
(modelled by `none`). -/
def fastRandMinCutLoop (g : UGraph) (rs : ℕ → ℚ) (fuel : ℕ) (n : ℕ) (st : KargerR) (pos : ℕ)
    (best : Option (List GEdge × ℚ)) : Option (Option (List GEdge × ℚ)) :=
  if hn : n = 0 then some best
  else
    match KargerR.fastRandMinCut g rs fuel st pos with
    | none => none
    | some (st1, p1) =>
      let best1 :=
        match best with
        | none => some (st1.c, st1.w)
        | some bw => if st1.w < bw.2 then some (st1.c, st1.w) else some bw
      fastRandMinCutLoop g rs fuel (n - 1) st1 p1 best1
termination_by n
decreasing_by omega

/-- `FastRandMinCut(g, iter)`: build one context, `init` it once, run
`iter` iterations of `fastRandMinCut` keeping the minimum-weight cut. -/
def FastRandMinCut (g : UGraph) (rs : ℕ → ℚ) (iter : ℕ) (fuel : ℕ) :
    Option (Option (List GEdge × ℚ)) :=
  fastRandMinCutLoop g rs fuel iter (kargerInit g) 0 none

/-- The `split` field set by `ParFastRandMinCut`: the `threads` argument,
with `0` replaced by `-1`. -/
def kargerRPSplit (threads : ℤ) : ℤ :=
  if threads = 0 then -1 else threads

/-- The spawn condition of `kargerRP.fastRandMinCut`: a wait group is
allocated (and both child contractions spawned concurrently) exactly
when `count < split`. -/
def kargerRPSpawn (count split : ℤ) : Bool :=
  count < split

/-- The worker-count clamp of `FastRandMinCutPar`: `thread` is reduced
to `MaxProcs` and then to `iter` when it exceeds them. -/
def clampThread (maxProcs iter thread : ℤ) : ℤ :=
  let t1 := if thread > maxProcs then maxProcs else thread
  if t1 > iter then iter else t1

/-- The partition loop of `FastRandMinCutPar`: starting from
`iter/thread + 1` and `rem = iter % thread`, each worker `j` first
applies `if rem == 0 { iter-- }; if rem >= 0 { rem-- }` and is then
assigned the current `iter` value. -/
def partitionLoop (n : ℕ) (it rem : ℤ) : List ℤ :=
  if hn : n = 0 then []
  else
    let it1 := if rem = 0 then it - 1 else it
    let rem1 := if rem ≥ 0 then rem - 1 else rem
    it1 :: partitionLoop (n - 1) it1 rem1
termination_by n
decreasing_by omega

/-- The per-worker iteration counts of `FastRandMinCutPar(g, iter,
thread)` with `MaxProcs = maxProcs`: the clamped worker count, then the
partition loop seeded by `iter/thread + 1` and `iter % thread`.  The
division is guarded: a zero clamped worker count (Go's integer division
by zero panic) yields `none`. -/
def parIterCounts (maxProcs iter thread : ℤ) : Option (List ℤ) :=
  let t := clampThread maxProcs iter thread
  if t = 0 then none
  else some (partitionLoop t.toNat (iter.tdiv t + 1) (iter.tmod t))

/-- A source edge as seen by `Nodes.BuildUndirected`: id, endpoint ids
(`u`, `v` as returned by `e.Nodes()`), weight and flags. -/
structure SrcEdge where
  eid : ℤ
  u : ℤ
  v : ℤ
  weight : ℚ
  flags : ℕ
deriving DecidableEq, Repr

/-- A source node as seen by `Nodes.BuildUndirected`: its id and its
incident edges. -/
structure SrcNode where
  nid : ℤ
  edges : List SrcEdge
deriving DecidableEq, Repr

/-- The graph under construction by `BuildUndirected`: the node-id table
and the edge records `(id, uid, vid, weight, flags)`.  Incidence lists
are not modelled. -/
structure BGraph where
  nodes : List ℤ
  bedges : List (ℤ × ℤ × ℤ × ℚ × ℕ)
deriving DecidableEq, Repr

/-- Modelled from the spec: `AddID(id)` ensures a node with the given id
exists; if absent it is inserted.  Idempotent. -/
def addID (g : BGraph) (id : ℤ) : BGraph :=
  if id ∈ g.nodes then g else { g with nodes := g.nodes ++ [id] }

/-- Modelled from the spec: `newEdge` (compact, fresh id) and
`newEdgeKeepID` (external id) append an edge record preserving weight
and flags. -/
def bNewEdge (g : BGraph) (compact : Bool) (e : SrcEdge) : BGraph :=
  let id := if compact then (g.bedges.length : ℤ) else e.eid
  { g with bedges := g.bedges ++ [(id, e.u, e.v, e.weight, e.flags)] }

/-- The inner loop of `Nodes.BuildUndirected` over one node's incident
edges: skip edges already seen, record the edge as seen, fail with
`NodeIDOutOfRange` on a negative endpoint id, otherwise add both
endpoints and the re-homed edge. -/
def buildNodeEdges (compact : Bool) : List SrcEdge → List SrcEdge → BGraph →
    Except GError (List SrcEdge × BGraph)
  | [], seen, g => .ok (seen, g)
  | e :: rest, seen, g =>
    if e ∈ seen then buildNodeEdges compact rest seen g
    else
      if e.u < 0 ∨ e.v < 0 then .error GError.nodeIDOutOfRange
      else buildNodeEdges compact rest (e :: seen) (bNewEdge (addID (addID g e.u) e.v) compact e)

/-- The outer loop of `Nodes.BuildUndirected` over the receiver's nodes:
`AddID` the node, then process its incident edges. -/
def buildUndirectedLoop (compact : Bool) : List SrcNode → List SrcEdge → BGraph →
    Except GError BGraph
  | [], _, g => .ok g
  | n :: rest, seen, g =>
    match buildNodeEdges compact n.edges seen (addID g n.nid) with
    | .error err => .error err
    | .ok (seen1, g1) => buildUndirectedLoop compact rest seen1 g1

/-- `Nodes.BuildUndirected(compact)`: materialise a new graph from a
node set, deduplicating edges and re-homing them. -/
def BuildUndirected (ns : List SrcNode) (compact : Bool) : Except GError BGraph :=
  buildUndirectedLoop compact ns [] { nodes := [], bedges := [] }

/-- The number of distinct values in the multiset
`{label[n.id] : n ∈ Nodes}`. -/
def distinctLabels (g : UGraph) (ov : Contraction) : ℕ :=
  ((g.nodes.map ov.label).dedup).length

/-- The set of representative node ids (labels, as naturals) of the
overlay over the graph's nodes. -/
def labReps (g : UGraph) (ov : Contraction) : Finset ℕ :=
  g.nodes.toFinset.image fun i => (ov.label i).toNat

/-- The inductive invariant of the contraction overlay: labels are node
ids, following `label` once reaches a fixed point, the representative
set has exactly `order` elements, a live representative without a member
list is a singleton class, and a live member list holds exactly the
class of its representative. -/
structure ContractInv (g : UGraph) (ov : Contraction) : Prop where
  labMem : ∀ i ∈ g.nodes, (ov.label i).toNat ∈ g.nodes
  labNonneg : ∀ i ∈ g.nodes, 0 ≤ ov.label i
  labIdem : ∀ i ∈ g.nodes, ov.label ((ov.label i).toNat) = ov.label i
  repCard : (labReps g ov).card = ov.order
  memNone : ∀ r ∈ g.nodes, (∃ i ∈ g.nodes, (ov.label i).toNat = r) → ov.nodes r = none →
    ∀ i ∈ g.nodes, ((ov.label i).toNat = r ↔ i = r)
  memSome : ∀ r ∈ g.nodes, (∃ i ∈ g.nodes, (ov.label i).toNat = r) →
    ∀ l, ov.nodes r = some l → ∀ i, i ∈ l ↔ (i ∈ g.nodes ∧ (ov.label i).toNat = r)

/-- The overlay states reachable during contraction: the freshly
initialised overlay, closed under merges of graph edges that are not
contraction loops.  Selector updates do not touch the overlay, so these
are exactly the overlay states arising in `randContract`/`randCompact`. -/
inductive ContractionReach (g : UGraph) : Contraction → Prop where
  | init : ContractionReach g (initContraction g)
  | merge : ∀ ov e, ContractionReach g ov → e ∈ g.edges → ov.label e.v ≠ ov.label e.u →
      ContractionReach g (mergeEdge ov e)

/-- Connectivity inside `g` restricted to edges satisfying `keep`,
traversing edges in either direction. -/
inductive ConnIn (g : UGraph) (keep : GEdge → Prop) : ℕ → ℕ → Prop where
  | refl : ∀ a, a ∈ g.nodes → ConnIn g keep a a
  | tail : ∀ a b c e, ConnIn g keep a b → e ∈ g.edges → keep e →
      ((e.u = b ∧ e.v = c) ∨ (e.v = b ∧ e.u = c)) → ConnIn g keep a c

/-- Removing the edge list `cut` from `g` leaves at least two connected
components: some two nodes are no longer connected. -/
def TwoComponents (g : UGraph) (cut : List GEdge) : Prop :=
  ∃ a ∈ g.nodes, ∃ b ∈ g.nodes, ¬ ConnIn g (fun e => e ∉ cut) a b

/-- The root total of a selector, `s[0].total`. -/
def rootTotal (s : Selector) : ℚ :=
  (s.getD 0 default).total

/-- The all-zeroes random stream used in the concrete runs below. -/
def rsZ : ℕ → ℚ := fun _ => 0

/-- A three-node path-fragment graph: nodes 0, 1, 2 and the single unit
edge 0–1.  One merge is possible, after which the selector is empty. -/
def gPath : UGraph :=
  { nodes := [0, 1, 2], edges := [{ eid := 0, u := 0, v := 1, weight := 1 }] }

/-- A single-node, edgeless graph. -/
def gOne : UGraph :=
  { nodes := [0], edges := [] }

/-- A two-node graph with one unit edge. -/
def gTwo : UGraph :=
  { nodes := [0, 1], edges := [{ eid := 0, u := 0, v := 1, weight := 1 }] }

/-- A triangle graph with unit weights. -/
def gTri : UGraph :=
  { nodes := [0, 1, 2]
    edges := [{ eid := 0, u := 0, v := 1, weight := 1 },
              { eid := 1, u := 1, v := 2, weight := 1 },
              { eid := 2, u := 0, v := 2, weight := 1 }] }

/-- A cut/weight pair as produced by `randCompact`: the non-loop edges
and their weight sum of some reachable overlay with at least two
supernodes. -/
def ValidCut (g : UGraph) (cw : List GEdge × ℚ) : Prop :=
  ∃ ov, ContractionReach g ov ∧ 2 ≤ ov.order ∧
    cw.1 = cutEdges g ov ∧ cw.2 = cutWeight g ov

/-! ## Basic unfolding lemmas -/

theorem accumFrom_zero (t : Selector) : accumFrom t 0 = t := by
  rw [accumFrom]; simp

theorem accumFrom_succ (t : Selector) (k : ℕ) (hk : k ≠ 0) :
    accumFrom t k = accumFrom (accumStep t k) (k - 1) := by
  rw [accumFrom]; simp [hk]

theorem ancChain_zero : ancChain 0 = [] := by
  rw [ancChain]; simp

theorem ancChain_succ (i : ℕ) (hi : i ≠ 0) : ancChain i = i :: ancChain (i / 2) := by
  rw [ancChain]; simp [hi]

theorem propagate_zero (s : Selector) (w : ℚ) : propagate s w 0 = s := by
  rw [propagate]; simp

theorem propagate_succ (s : Selector) (w : ℚ) (i : ℕ) (hi : i ≠ 0) :
    propagate s w i =
      propagate (s.set (i - 1)
        { s.getD (i - 1) default with total := (s.getD (i - 1) default).total - w }) w (i / 2) := by
  conv_lhs => rw [propagate]
  simp [hi]

theorem partitionLoop_zero_workers (it rem : ℤ) : partitionLoop 0 it rem = [] := by
  rw [partitionLoop]; simp

theorem partitionLoop_succ (n : ℕ) (it rem : ℤ) (hn : n ≠ 0) :
    partitionLoop n it rem =
      (if rem = 0 then it - 1 else it) ::
        partitionLoop (n - 1) (if rem = 0 then it - 1 else it) (if rem ≥ 0 then rem - 1 else rem) := by
  conv_lhs => rw [partitionLoop]
  simp [hn]

/-! ## The C2 / C8 / C10 lemma chain -/

theorem clampThread_eq_min (maxProcs iter thread : ℤ) :
    clampThread maxProcs iter thread = min thread (min maxProcs iter) := by
  unfold clampThread
  rcases le_or_lt thread maxProcs with h | h <;> rcases le_or_lt thread iter with h2 | h2 <;>
    rcases le_or_lt maxProcs iter with h3 | h3 <;> simp <;> omega

theorem partitionLoop_neg (n : ℕ) (it : ℤ) (rem : ℤ) (hr : rem < 0) :
    partitionLoop n it rem = List.replicate n it := by
  induction n with
  | zero => simp [partitionLoop_zero_workers]
  | succ n ih =>
    rw [partitionLoop_succ _ _ _ (Nat.succ_ne_zero n)]
    have h0 : ¬ rem = 0 := by omega
    have h1 : ¬ rem ≥ 0 := by omega
    simp only [h0, h1, if_false, if_neg h1]
    simp [ih, List.replicate_succ]

theorem partitionLoop_split (n : ℕ) (it : ℤ) (rem : ℤ) (hr : 0 ≤ rem) (hn : rem.toNat ≤ n) :
    partitionLoop n it rem =
      List.replicate rem.toNat it ++ List.replicate (n - rem.toNat) (it - 1) := by
  induction n generalizing rem with
  | zero =>
    have : rem = 0 := by omega
    subst this
    simp [partitionLoop_zero_workers]
  | succ n ih =>
    rw [partitionLoop_succ _ _ _ (Nat.succ_ne_zero n)]
    rcases eq_or_lt_of_le hr with h0 | h0
    · have h0' : rem = 0 := h0.symm
      subst h0'
      simp only [if_pos rfl, ge_iff_le, le_refl, if_pos]
      rw [partitionLoop_neg _ _ _ (by omega)]
      simp [List.replicate_succ]
    · have h1 : ¬ rem = 0 := by omega
      have h2 : rem ≥ 0 := hr
      simp only [h1, if_false, if_pos h2, Nat.succ_sub_one]
      have h3 : (rem - 1).toNat ≤ n := by omega
      rw [ih (rem - 1) (by omega) h3]
      have h4 : rem.toNat = (rem - 1).toNat + 1 := by omega
      rw [h4]
      simp [List.replicate_succ]

/-- C2: with a split budget of 0, `ParFastRandMinCut` stores `-1` in the
`split` field, and the spawn condition `count < split` of
`kargerRP.fastRandMinCut` is false for every reachable counter value
(`count` starts at 0 and only grows), so no recursive call ever spawns
its children concurrently — concurrency is disabled, not unlimited. -/
theorem parFastRandMinCut_split_zero_never_spawns :
    kargerRPSplit 0 = -1 ∧
      ∀ count : ℕ, kargerRPSpawn (count : ℤ) (kargerRPSplit 0) = false := by
  constructor
  · rfl
  · intro count
    simp [kargerRPSpawn, kargerRPSplit]
    omega

/-- C10: if `iter = 0` or `threads = 0`, the clamped worker count of
`FastRandMinCutPar` is `0` and the partition `iter/thread` hits the
guarded division-by-zero branch; under `iter ≥ 1 ∧ threads ≥ 1` (with
`MaxProcs ≥ 1`) that branch is unreachable. -/
theorem fastRandMinCutPar_div_by_zero (maxProcs iter thread : ℤ)
    (hmp : 1 ≤ maxProcs) (hi : 0 ≤ iter) (hth : 0 ≤ thread) :
    ((iter = 0 ∨ thread = 0) →
        clampThread maxProcs iter thread = 0 ∧ parIterCounts maxProcs iter thread = none) ∧
      (1 ≤ iter → 1 ≤ thread →
        1 ≤ clampThread maxProcs iter thread ∧ (parIterCounts maxProcs iter thread).isSome) := by
  constructor
  · intro h
    have hc : clampThread maxProcs iter thread = 0 := by
      rw [clampThread_eq_min]; omega
    refine ⟨hc, ?_⟩
    unfold parIterCounts
    simp [hc]
  · intro h1 h2
    have hc : 1 ≤ clampThread maxProcs iter thread := by
      rw [clampThread_eq_min]; omega
    refine ⟨hc, ?_⟩
    unfold parIterCounts
    have : ¬ clampThread maxProcs iter thread = 0 := by omega
    simp [this]

theorem fastRandMinCutPar_div_by_zero_witness :
    ((0 = (0:ℤ) ∨ (0:ℤ) = 0) → clampThread 1 0 0 = 0 ∧ parIterCounts 1 0 0 = none) ∧
      (1 ≤ (0:ℤ) → 1 ≤ (0:ℤ) → 1 ≤ clampThread 1 0 0 ∧ (parIterCounts 1 0 0).isSome) :=
  fastRandMinCutPar_div_by_zero 1 0 0 (by norm_num) (by norm_num) (by norm_num)

/-- C8: for `iter ≥ 1` and `threads ≥ 1` (and `MaxProcs ≥ 1`),
`FastRandMinCutPar` clamps the worker count to
`min(threads, MaxProcs, iter)`, and the per-worker iteration counts
produced by the partition loop have that length, sum exactly to `iter`,
and each equal `iter/T` or `iter/T + 1`. -/
theorem fastRandMinCutPar_partition (maxProcs iter thread : ℤ)
    (hmp : 1 ≤ maxProcs) (hit : 1 ≤ iter) (hth : 1 ≤ thread) :
    clampThread maxProcs iter thread = min thread (min maxProcs iter) ∧
      ∃ counts, parIterCounts maxProcs iter thread = some counts ∧
        counts.length = (clampThread maxProcs iter thread).toNat ∧
        counts.sum = iter ∧
        ∀ x ∈ counts, x = iter.tdiv (clampThread maxProcs iter thread) ∨
          x = iter.tdiv (clampThread maxProcs iter thread) + 1 := by
  refine ⟨clampThread_eq_min _ _ _, ?_⟩
  set T := clampThread maxProcs iter thread with hT
  have hT1 : 1 ≤ T := by rw [hT, clampThread_eq_min]; omega
  have hTiter : T ≤ iter := by rw [hT, clampThread_eq_min]; omega
  have hTne : T ≠ 0 := by omega
  set q := iter.tdiv T with hq
  set r := iter.tmod T with hr
  have hrnn : 0 ≤ r := Int.tmod_nonneg T (by omega)
  have hrlt : r < T := by
    have := Int.tmod_lt_of_pos iter (show 0 < T by omega)
    omega
  have hdivmod : T * q + r = iter := by
    rw [hq, hr]; exact Int.tdiv_add_tmod iter T
  have hcounts : parIterCounts maxProcs iter thread =
      some (partitionLoop T.toNat (q + 1) r) := by
    unfold parIterCounts
    rw [← hT]
    simp [hTne, hq, hr]
  refine ⟨partitionLoop T.toNat (q + 1) r, hcounts, ?_, ?_, ?_⟩
  · rw [partitionLoop_split _ _ _ hrnn (by omega)]
    simp
    omega
  · rw [partitionLoop_split _ _ _ hrnn (by omega)]
    rw [List.sum_append, List.sum_replicate, List.sum_replicate]
    have h1 : ((r.toNat : ℤ)) = r := Int.toNat_of_nonneg hrnn
    have h2 : ((T.toNat - r.toNat : ℕ) : ℤ) = T - r := by omega
    rw [nsmul_eq_mul, nsmul_eq_mul, h1, h2]
    have : q + 1 - 1 = q := by ring
    rw [this]
    nlinarith [hdivmod]
  · intro x hx
    rw [partitionLoop_split _ _ _ hrnn (by omega)] at hx
    rcases List.mem_append.mp hx with h | h
    · right
      have := List.eq_of_mem_replicate h
      omega
    · left
      have := List.eq_of_mem_replicate h
      omega

theorem fastRandMinCutPar_partition_witness :
    clampThread 4 5 2 = min 2 (min 4 5) ∧
      ∃ counts, parIterCounts 4 5 2 = some counts ∧
        counts.length = (clampThread 4 5 2).toNat ∧
        counts.sum = 5 ∧
        ∀ x ∈ counts, x = Int.tdiv 5 (clampThread 4 5 2) ∨
          x = Int.tdiv 5 (clampThread 4 5 2) + 1 :=
  fastRandMinCutPar_partition 4 5 2 (by norm_num) (by norm_num) (by norm_num)

/-! ## Selector list helpers -/

theorem getD_set_eq (l : Selector) (p : ℕ) (a : WeightedItem) (hp : p < l.length) :
    (l.set p a).getD p default = a := by
  rw [List.getD_eq_getElem?_getD, List.getElem?_set_self hp]
  rfl

theorem getD_set_ne (l : Selector) (p : ℕ) (a : WeightedItem) (j : ℕ) (h : p ≠ j) :
    (l.set p a).getD j default = l.getD j default := by
  rw [List.getD_eq_getElem?_getD, List.getElem?_set_ne h, ← List.getD_eq_getElem?_getD]

theorem getD_of_getElem? (l : Selector) (j : ℕ) (a : WeightedItem) (h : l[j]? = some a) :
    l.getD j default = a := by
  rw [List.getD_eq_getElem?_getD, h]
  rfl

/-! ## C7: the Select error case -/

/-- C7: on a non-empty selector, `Select` fails (returning `-1`, the
unchanged selector and `SelectorEmpty`) exactly when the root total is
zero, and no run of `Select` ever produces a different error. -/
theorem selector_select_error_iff (s : Selector) (u : ℚ) (hs : s ≠ []) :
    (s.Select u = some (-1, s, some GError.selectorEmpty) ↔ rootTotal s = 0) ∧
      ∀ i s1 e, s.Select u = some (i, s1, some e) →
        e = GError.selectorEmpty ∧ i = -1 ∧ s1 = s ∧ rootTotal s = 0 := by
  obtain ⟨it0, rest, rfl⟩ := List.exists_cons_of_ne_nil hs
  have hroot : rootTotal (it0 :: rest) = it0.total := by
    simp [rootTotal]
  unfold Selector.Select
  simp only [List.getElem?_cons_zero]
  by_cases hz : it0.total = 0
  · simp [hz, hroot]
  · simp only [if_neg hz]
    cases hd : selDescend (it0 :: rest) ((it0 :: rest).length + 2) (it0.total * u) 1 with
    | none => simp [hroot, hz]
    | some i => simp [hroot, hz]

theorem selector_select_error_iff_witness :
    ((([⟨0, 0, 0⟩] : Selector) ≠ []) ∧
      ((Selector.Select [⟨0, 0, 0⟩] 0 = some (-1, [⟨0, 0, 0⟩], some GError.selectorEmpty) ↔
          rootTotal [⟨0, 0, 0⟩] = 0) ∧
        ∀ i s1 e, Selector.Select [⟨0, 0, 0⟩] 0 = some (i, s1, some e) →
          e = GError.selectorEmpty ∧ i = -1 ∧ s1 = [⟨0, 0, 0⟩] ∧ rootTotal [⟨0, 0, 0⟩] = 0)) :=
  ⟨by simp, selector_select_error_iff [⟨0, 0, 0⟩] 0 (by simp)⟩

/-! ## C5: Init root total and idempotence -/

theorem accumStep_length (t : Selector) (i : ℕ) : (accumStep t i).length = t.length := by
  simp [accumStep]

theorem accumFrom_length (t : Selector) (k : ℕ) : (accumFrom t k).length = t.length := by
  induction k generalizing t with
  | zero => rw [accumFrom_zero]
  | succ n ih =>
    rw [accumFrom_succ _ _ (Nat.succ_ne_zero n), Nat.succ_sub_one, ih, accumStep_length]

theorem accumStep_getD_weight (t : Selector) (i j : ℕ) :
    ((accumStep t i).getD j default).Weight = (t.getD j default).Weight := by
  simp only [accumStep]
  by_cases hp : (i + 1) / 2 - 1 < t.length
  · by_cases hj : (i + 1) / 2 - 1 = j
    · subst hj
      rw [getD_set_eq _ _ _ hp]
    · rw [getD_set_ne _ _ _ _ hj]
  · rw [List.set_eq_of_length_le (by omega)]

theorem accumStep_getD_index (t : Selector) (i j : ℕ) :
    ((accumStep t i).getD j default).Index = (t.getD j default).Index := by
  simp only [accumStep]
  by_cases hp : (i + 1) / 2 - 1 < t.length
  · by_cases hj : (i + 1) / 2 - 1 = j
    · subst hj
      rw [getD_set_eq _ _ _ hp]
    · rw [getD_set_ne _ _ _ _ hj]
  · rw [List.set_eq_of_length_le (by omega)]

theorem accumFrom_getD_weight (t : Selector) (k j : ℕ) :
    ((accumFrom t k).getD j default).Weight = (t.getD j default).Weight := by
  induction k generalizing t with
  | zero => rw [accumFrom_zero]
  | succ n ih =>
    rw [accumFrom_succ _ _ (Nat.succ_ne_zero n), Nat.succ_sub_one, ih, accumStep_getD_weight]

theorem accumFrom_getD_index (t : Selector) (k j : ℕ) :
    ((accumFrom t k).getD j default).Index = (t.getD j default).Index := by
  induction k generalizing t with
  | zero => rw [accumFrom_zero]
  | succ n ih =>
    rw [accumFrom_succ _ _ (Nat.succ_ne_zero n), Nat.succ_sub_one, ih, accumStep_getD_index]

theorem accumFrom_root_total (t : Selector) (k : ℕ) (hk : k < t.length) :
    rootTotal (accumFrom t k) = ∑ i ∈ Finset.range (k + 1), (t.getD i default).total := by
  induction k generalizing t with
  | zero =>
    rw [accumFrom_zero]
    simp [rootTotal]
  | succ n ih =>
    rw [accumFrom_succ _ _ (Nat.succ_ne_zero n), Nat.succ_sub_one]
    have hlen : n < (accumStep t (n + 1)).length := by
      rw [accumStep_length]; omega
    rw [ih _ hlen]
    have hp : (n + 1 + 1) / 2 - 1 ≤ n := by omega
    have hplen : (n + 1 + 1) / 2 - 1 < t.length := by omega
    have hstep : ∀ i ∈ Finset.range (n + 1),
        ((accumStep t (n + 1)).getD i default).total =
          (t.getD i default).total +
            (if i = (n + 1 + 1) / 2 - 1 then (t.getD (n + 1) default).total else 0) := by
      intro i _
      by_cases hip : i = (n + 1 + 1) / 2 - 1
      · subst hip
        unfold accumStep
        rw [getD_set_eq _ _ _ hplen]
        simp
      · unfold accumStep
        rw [getD_set_ne _ _ _ _ (fun h => hip h.symm)]
        simp [hip]
    rw [Finset.sum_congr rfl hstep, Finset.sum_add_distrib, Finset.sum_ite_eq']
    rw [if_pos (Finset.mem_range.mpr (by omega : (n + 1 + 1) / 2 - 1 < n + 1))]
    rw [Finset.sum_range_succ (fun i => (List.getD t i default).total) (n + 1)]

theorem setTotals_length (s : Selector) : (setTotals s).length = s.length := by
  simp [setTotals]

theorem setTotals_getD (s : Selector) (j : ℕ) (hj : j < s.length) :
    (setTotals s).getD j default =
      { s.getD j default with total := (s.getD j default).Weight } := by
  unfold setTotals
  have h : s[j]? = some (s.getD j default) := by
    rw [List.getD_eq_getElem?_getD, List.getElem?_eq_getElem hj]
    rfl
  rw [List.getD_eq_getElem?_getD, List.getElem?_map, h]
  rfl

theorem map_weight_sum_eq_range (s : Selector) :
    (s.map WeightedItem.Weight).sum = ∑ i ∈ Finset.range s.length, (s.getD i default).Weight := by
  induction s with
  | nil => simp
  | cons a t ih =>
    simp only [List.map_cons, List.sum_cons, List.length_cons, ih]
    rw [Finset.sum_range_succ']
    simp [List.getD_cons_succ, List.getD_cons_zero]
    ring

theorem selector_init_length (s : Selector) : s.Init.length = s.length := by
  unfold Selector.Init
  rw [accumFrom_length, setTotals_length]

theorem setTotals_accumFrom (t : Selector) (k : ℕ) :
    setTotals (accumFrom t k) = setTotals t := by
  apply List.ext_getElem?
  intro j
  unfold setTotals
  rw [List.getElem?_map, List.getElem?_map]
  by_cases hj : j < t.length
  · have h1 : (accumFrom t k)[j]? = some ((accumFrom t k).getD j default) := by
      rw [List.getD_eq_getElem?_getD, List.getElem?_eq_getElem (by rw [accumFrom_length]; omega)]
      rfl
    have h2 : t[j]? = some (t.getD j default) := by
      rw [List.getD_eq_getElem?_getD, List.getElem?_eq_getElem hj]
      rfl
    rw [h1, h2]
    simp only [Option.map_some', Option.some.injEq]
    have hw := accumFrom_getD_weight t k j
    have hx := accumFrom_getD_index t k j
    congr 1
  · have h1 : (accumFrom t k)[j]? = none := by
      rw [List.getElem?_eq_none]
      rw [accumFrom_length]; omega
    have h2 : t[j]? = none := by
      rw [List.getElem?_eq_none]; omega
    rw [h1, h2]

theorem setTotals_setTotals (s : Selector) : setTotals (setTotals s) = setTotals s := by
  unfold setTotals
  rw [List.map_map]
  rfl

/-- C5: for a selector of length at least one with non-negative weights,
`Init` leaves the root total `s[0].total` equal to the sum of all
weights, and `Init` is idempotent. -/
theorem selector_init_root_total_idem (s : Selector) (hn : 1 ≤ s.length)
    (hw : ∀ it ∈ s, 0 ≤ it.Weight) :
    rootTotal s.Init = (s.map WeightedItem.Weight).sum ∧ s.Init.Init = s.Init := by
  constructor
  · unfold Selector.Init
    have hk : s.length - 1 < (setTotals s).length := by
      rw [setTotals_length]; omega
    rw [accumFrom_root_total _ _ hk]
    have hrange : s.length - 1 + 1 = s.length := by omega
    rw [hrange, map_weight_sum_eq_range]
    apply Finset.sum_congr rfl
    intro i hi
    rw [Finset.mem_range] at hi
    rw [setTotals_getD _ _ hi]
  · conv_lhs => unfold Selector.Init
    rw [accumFrom_length, setTotals_length, setTotals_accumFrom, setTotals_setTotals]
    rfl

theorem selector_init_root_total_idem_witness :
    (1 ≤ ([⟨0, 1, 5⟩, ⟨1, 2, 7⟩] : Selector).length ∧
        ∀ it ∈ ([⟨0, 1, 5⟩, ⟨1, 2, 7⟩] : Selector), 0 ≤ it.Weight) ∧
      (rootTotal (Selector.Init [⟨0, 1, 5⟩, ⟨1, 2, 7⟩]) =
          (([⟨0, 1, 5⟩, ⟨1, 2, 7⟩] : Selector).map WeightedItem.Weight).sum ∧
        Selector.Init (Selector.Init [⟨0, 1, 5⟩, ⟨1, 2, 7⟩]) =
          Selector.Init [⟨0, 1, 5⟩, ⟨1, 2, 7⟩]) :=
  ⟨⟨by simp, by
      intro it hit
      simp at hit
      rcases hit with h | h <;> subst h <;> norm_num⟩,
    selector_init_root_total_idem _ (by simp) (by
      intro it hit
      simp at hit
      rcases hit with h | h <;> subst h <;> norm_num)⟩

/-! ## C6: the Select success case -/

theorem selDescend_some (s : Selector) (fuel : ℕ) (r : ℚ) (i j : ℕ)
    (h : selDescend s fuel r i = some j) (hi : 1 ≤ i) : 1 ≤ j ∧ j - 1 < s.length := by
  induction fuel generalizing r i with
  | zero => rw [selDescend] at h; simp at h
  | succ n ih =>
    rw [selDescend] at h
    simp only [Nat.succ_ne_zero, dite_false] at h
    cases hm : s[i - 1]? with
    | none => rw [hm] at h; simp at h
    | some it =>
      rw [hm] at h
      simp only at h
      by_cases hr : r - it.Weight ≤ 0
      · rw [if_pos hr] at h
        have hj : j = i := by
          simpa using h.symm
        subst hj
        have := List.getElem?_eq_some_iff.mp hm
        exact ⟨hi, this.choose⟩
      · rw [if_neg hr] at h
        cases hm2 : s[2 * i - 1]? with
        | none => rw [hm2] at h; simp at h
        | some lc =>
          rw [hm2] at h
          simp only at h
          by_cases hcmp : r - it.Weight > lc.total
          · rw [if_pos hcmp] at h
            exact ih _ _ (by simpa using h) (by omega)
          · rw [if_neg hcmp] at h
            exact ih _ _ (by simpa using h) (by omega)

theorem ancChain_le (i : ℕ) : ∀ x ∈ ancChain i, x ≤ i := by
  induction i using Nat.strong_induction_on with
  | _ i ih =>
    by_cases hi : i = 0
    · subst hi
      rw [ancChain_zero]
      simp
    · rw [ancChain_succ _ hi]
      intro x hx
      rcases List.mem_cons.mp hx with h | h
      · omega
      · have hx2 := ih (i / 2) (by omega) x h
        omega

theorem one_mem_ancChain (i : ℕ) (hi : 1 ≤ i) : 1 ∈ ancChain i := by
  induction i using Nat.strong_induction_on with
  | _ i ih =>
    rw [ancChain_succ _ (by omega)]
    by_cases h1 : i = 1
    · subst h1
      exact List.mem_cons_self _ _
    · exact List.mem_cons_of_mem _ (ih (i / 2) (by omega) (by omega))

theorem set_total_keep (s : Selector) (p : ℕ) (a : WeightedItem)
    (ha : a.total = (s.getD p default).total) (j : ℕ) (hj : j < s.length) :
    ((s.set p a).getD j default).total = (s.getD j default).total := by
  by_cases hpj : p = j
  · subst hpj
    by_cases hp : p < s.length
    · rw [getD_set_eq _ _ _ hp, ha]
    · rw [List.set_eq_of_length_le (by omega)]
  · rw [getD_set_ne _ _ _ _ hpj]

theorem propagate_spec (i : ℕ) : ∀ (s : Selector) (w : ℚ), i ≤ s.length →
    (propagate s w i).length = s.length ∧
      ∀ j < s.length,
        ((propagate s w i).getD j default).Weight = (s.getD j default).Weight ∧
          ((propagate s w i).getD j default).Index = (s.getD j default).Index ∧
          ((propagate s w i).getD j default).total =
            (s.getD j default).total - (if j + 1 ∈ ancChain i then w else 0) := by
  induction i using Nat.strong_induction_on with
  | _ i ih =>
    intro s w hi
    by_cases hi0 : i = 0
    · subst hi0
      rw [propagate_zero]
      refine ⟨rfl, ?_⟩
      intro j hj
      rw [ancChain_zero]
      simp
    · rw [propagate_succ _ _ _ hi0]
      have hlen1 : i - 1 < s.length := by omega
      set s2 := s.set (i - 1)
        { s.getD (i - 1) default with total := (s.getD (i - 1) default).total - w } with hs2
      have hlen2 : s2.length = s.length := by rw [hs2, List.length_set]
      have hrec := ih (i / 2) (by omega) s2 w (by omega)
      refine ⟨by rw [hrec.1, hlen2], ?_⟩
      intro j hj
      have hj2 : j < s2.length := by omega
      obtain ⟨hW, hX, hT⟩ := hrec.2 j hj2
      have hchain : ancChain i = i :: ancChain (i / 2) := ancChain_succ _ hi0
      have hchain2 : ∀ x ∈ ancChain (i / 2), x ≤ i / 2 := ancChain_le _
      constructor
      · rw [hW, hs2]
        by_cases hpj : i - 1 = j
        · subst hpj
          rw [getD_set_eq _ _ _ hlen1]
        · rw [getD_set_ne _ _ _ _ hpj]
      constructor
      · rw [hX, hs2]
        by_cases hpj : i - 1 = j
        · subst hpj
          rw [getD_set_eq _ _ _ hlen1]
        · rw [getD_set_ne _ _ _ _ hpj]
      · rw [hT, hchain]
        by_cases hpj : i - 1 = j
        · subst hpj
          have hs2v : (s2.getD (i - 1) default).total =
              (s.getD (i - 1) default).total - w := by
            rw [hs2, getD_set_eq _ _ _ hlen1]
          rw [hs2v]
          have hmem : i - 1 + 1 ∈ i :: ancChain (i / 2) := by
            have : i - 1 + 1 = i := by omega
            rw [this]
            exact List.mem_cons_self _ _
          rw [if_pos hmem]
          have hnot : ¬ (i - 1 + 1 ∈ ancChain (i / 2)) := by
            intro hmem2
            have := hchain2 _ hmem2
            omega
          rw [if_neg hnot]
          ring
        · have hs2v : (s2.getD j default).total = (s.getD j default).total := by
            rw [hs2, getD_set_ne _ _ _ _ hpj]
          rw [hs2v]
          have hne : j + 1 ≠ i := by omega
          by_cases hmem2 : j + 1 ∈ ancChain (i / 2)
          · rw [if_pos hmem2, if_pos (List.mem_cons_of_mem _ hmem2)]
          · have : ¬ (j + 1 ∈ i :: ancChain (i / 2)) := by
              intro hc
              rcases List.mem_cons.mp hc with h | h
              · exact hne h
              · exact hmem2 h
            rw [if_neg hmem2, if_neg this]

/-- C6: whenever `Select` on an initialised selector returns without
error, the chosen item's `Weight` is zeroed, the pre-selection weight is
subtracted from the `total` of the chosen position and of each of its
ancestors (and of no other position), the root total decreases by
exactly the chosen item's pre-selection weight, and every other item's
`Weight` is unchanged. -/
theorem selector_select_success (s : Selector) (u : ℚ) (idx : ℤ) (s1 : Selector)
    (hinit : Selector.Init s = s)
    (hsel : s.Select u = some (idx, s1, none)) :
    ∃ i, 1 ≤ i ∧ i - 1 < s.length ∧
      selDescend s (s.length + 2) (rootTotal s * u) 1 = some i ∧
      idx = (s.getD (i - 1) default).Index ∧
      (s1.getD (i - 1) default).Weight = 0 ∧
      (∀ j < s.length, j ≠ i - 1 →
        (s1.getD j default).Weight = (s.getD j default).Weight) ∧
      rootTotal s1 = rootTotal s - (s.getD (i - 1) default).Weight ∧
      (∀ j, 1 ≤ j → j - 1 < s.length →
        (j ∈ ancChain i →
          (s1.getD (j - 1) default).total =
            (s.getD (j - 1) default).total - (s.getD (i - 1) default).Weight) ∧
        (j ∉ ancChain i →
          (s1.getD (j - 1) default).total = (s.getD (j - 1) default).total)) := by
  unfold Selector.Select at hsel
  cases hm : s[0]? with
  | none => rw [hm] at hsel; simp at hsel
  | some it0 =>
    rw [hm] at hsel
    simp only at hsel
    by_cases hz : it0.total = 0
    · rw [if_pos hz] at hsel
      simp at hsel
    · rw [if_neg hz] at hsel
      have hroot0 : rootTotal s = it0.total := by
        unfold rootTotal
        exact congrArg WeightedItem.total (getD_of_getElem? _ _ _ hm)
      rw [← hroot0] at hsel
      cases hd : selDescend s (s.length + 2) (rootTotal s * u) 1 with
      | none => rw [hd] at hsel; simp at hsel
      | some i =>
        rw [hd] at hsel
        simp only [Option.some.injEq, Prod.mk.injEq] at hsel
        obtain ⟨hidx, hs1, -⟩ := hsel
        obtain ⟨hi1, hilen⟩ := selDescend_some s _ _ _ _ hd le_rfl
        set w := (s.getD (i - 1) default).Weight with hwdef
        set s2 := s.set (i - 1) { s.getD (i - 1) default with Weight := 0 } with hs2def
        have hlen2 : s2.length = s.length := by rw [hs2def, List.length_set]
        have hprop := propagate_spec i s2 w (by omega)
        have hs2tot : ∀ j < s.length, (s2.getD j default).total = (s.getD j default).total := by
          intro j hj
          apply set_total_keep
          rfl
          exact hj
        refine ⟨i, hi1, hilen, rfl, hidx.symm, ?_, ?_, ?_, ?_⟩
        · rw [← hs1]
          have := (hprop.2 (i - 1) (by omega)).1
          rw [this, hs2def, getD_set_eq _ _ _ hilen]
        · intro j hj hji
          rw [← hs1]
          have := (hprop.2 j (by omega)).1
          rw [this, hs2def, getD_set_ne _ _ _ _ (fun h => hji h.symm)]
        · rw [← hs1]
          unfold rootTotal
          have h0len : (0 : ℕ) < s.length := by omega
          have := (hprop.2 0 (by omega)).2.2
          rw [this, if_pos (by simpa using one_mem_ancChain i hi1), hs2tot 0 h0len]
        · intro j hj1 hjlen
          constructor
          · intro hjmem
            rw [← hs1]
            have := (hprop.2 (j - 1) (by omega)).2.2
            have hj1eq : j - 1 + 1 = j := by omega
            rw [this, hj1eq, if_pos hjmem, hs2tot (j - 1) (by omega)]
          · intro hjmem
            rw [← hs1]
            have := (hprop.2 (j - 1) (by omega)).2.2
            have hj1eq : j - 1 + 1 = j := by omega
            rw [this, hj1eq, if_neg hjmem, hs2tot (j - 1) (by omega)]
            ring

theorem selector_select_success_witness :
    Selector.Init [⟨7, 2, 2⟩] = ([⟨7, 2, 2⟩] : Selector) ∧
      Selector.Select [⟨7, 2, 2⟩] 0 = some (7, [⟨7, 0, 0⟩], none) ∧
      ∃ i, 1 ≤ i ∧ i - 1 < ([⟨7, 2, 2⟩] : Selector).length ∧
        selDescend [⟨7, 2, 2⟩] (([⟨7, 2, 2⟩] : Selector).length + 2)
          (rootTotal [⟨7, 2, 2⟩] * 0) 1 = some i ∧
        (7 : ℤ) = (([⟨7, 2, 2⟩] : Selector).getD (i - 1) default).Index ∧
        (([⟨7, 0, 0⟩] : Selector).getD (i - 1) default).Weight = 0 ∧
        (∀ j < ([⟨7, 2, 2⟩] : Selector).length, j ≠ i - 1 →
          (([⟨7, 0, 0⟩] : Selector).getD j default).Weight =
            (([⟨7, 2, 2⟩] : Selector).getD j default).Weight) ∧
        rootTotal [⟨7, 0, 0⟩] =
          rootTotal [⟨7, 2, 2⟩] - (([⟨7, 2, 2⟩] : Selector).getD (i - 1) default).Weight ∧
        (∀ j, 1 ≤ j → j - 1 < ([⟨7, 2, 2⟩] : Selector).length →
          (j ∈ ancChain i →
            (([⟨7, 0, 0⟩] : Selector).getD (j - 1) default).total =
              (([⟨7, 2, 2⟩] : Selector).getD (j - 1) default).total -
                (([⟨7, 2, 2⟩] : Selector).getD (i - 1) default).Weight) ∧
          (j ∉ ancChain i →
            (([⟨7, 0, 0⟩] : Selector).getD (j - 1) default).total =
              (([⟨7, 2, 2⟩] : Selector).getD (j - 1) default).total)) := by
  have h1 : Selector.Init [⟨7, 2, 2⟩] = ([⟨7, 2, 2⟩] : Selector) := by
    norm_num [Selector.Init, setTotals, accumFrom_zero]
  have h2 : Selector.Select [⟨7, 2, 2⟩] 0 = some (7, [⟨7, 0, 0⟩], none) := by
    rw [Selector.Select]
    norm_num
    rw [selDescend]
    norm_num
    rw [propagate]
    norm_num
    rw [propagate]
    norm_num
  exact ⟨h1, h2, selector_select_success _ _ _ _ h1 h2⟩

/-! ## C3: contraction overlay invariants -/

theorem relabel_foldl (l : List ℕ) (f : ℕ → ℤ) (h : ℕ) :
    l.foldl (fun f i => Function.update f i (f h)) f =
      fun j => if j ∈ l then f h else f j := by
  induction l generalizing f with
  | nil => simp
  | cons a t ih =>
    simp only [List.foldl_cons]
    rw [ih]
    have hup : (Function.update f a (f h)) h = f h := by
      by_cases hah : h = a
      · subst hah
        rw [Function.update_same]
      · rw [Function.update_noteq hah]
    funext j
    rw [hup]
    by_cases hj : j ∈ t
    · simp [hj]
    · by_cases hja : j = a
      · subst hja
        simp [Function.update_same, hj]
      · simp [hj, hja, Function.update_noteq hja]

theorem foldl_update_id (l : List ℕ) (f : ℕ → ℤ) (j : ℕ) :
    (l.foldl (fun (f : ℕ → ℤ) n => Function.update f n (n : ℤ)) f) j =
      if j ∈ l then (j : ℤ) else f j := by
  induction l generalizing f with
  | nil => simp
  | cons a t ih =>
    simp only [List.foldl_cons]
    rw [ih]
    by_cases hj : j ∈ t
    · simp [hj]
    · by_cases hja : j = a
      · subst hja
        simp [Function.update_same, hj]
      · simp [hj, hja, Function.update_noteq hja]

theorem initLabel_eq (g : UGraph) (j : ℕ) :
    initLabel g j = if j ∈ g.nodes then (j : ℤ) else -1 := by
  unfold initLabel
  rw [foldl_update_id]

theorem mergeParts_shape (ov : Contraction) (hid tid : ℕ)
    (hne : (ov.label hid).toNat ≠ (ov.label tid).toNat) :
    ∃ M : List ℕ,
      (∀ i, i ∈ M ↔
        ((ov.nodes (ov.label hid).toNat = none ∧ i = hid) ∨
          (∃ lh, ov.nodes (ov.label hid).toNat = some lh ∧ i ∈ lh) ∨
          (ov.nodes (ov.label tid).toNat = none ∧ i = tid) ∨
          (∃ lt, ov.nodes (ov.label tid).toNat = some lt ∧ i ∈ lt))) ∧
      (mergeParts ov hid tid).nodes = (fun r =>
        if r = (ov.label hid).toNat then some M
        else if r = (ov.label tid).toNat then none else ov.nodes r) ∧
      (mergeParts ov hid tid).label =
        (fun j => if j ∈ M then ov.label hid else ov.label j) ∧
      (mergeParts ov hid tid).order = ov.order - 1 := by
  have hne' : (ov.label tid).toNat ≠ (ov.label hid).toNat := Ne.symm hne
  by_cases hmh : ov.nodes ((ov.label hid).toNat) = none
  · by_cases hmt : ov.nodes ((ov.label tid).toNat) = none
    · refine ⟨[hid, tid], ?_, ?_, ?_, ?_⟩
      · intro i
        simp [hmh, hmt]
      · funext r
        by_cases hr : r = (ov.label hid).toNat
        · subst hr
          simp [mergeParts, hmh, hmt, hne', Function.update_noteq]
        · by_cases hr2 : r = (ov.label tid).toNat
          · subst hr2
            simp [mergeParts, hmh, hmt, hne', hr, Function.update_noteq]
          · simp [mergeParts, hmh, hmt, hne', hr, hr2, Function.update_noteq]
      · have heval : (mergeParts ov hid tid).label =
            List.foldl (fun f i => Function.update f i (f hid)) ov.label [hid, tid] := by
          simp [mergeParts, hmh, hmt, hne', Function.update_noteq]
        rw [heval, relabel_foldl]
      · simp [mergeParts]
    · obtain ⟨lt, hmt2⟩ := Option.ne_none_iff_exists'.mp hmt
      refine ⟨[hid] ++ lt, ?_, ?_, ?_, ?_⟩
      · intro i
        simp [hmh, hmt2]
      · funext r
        by_cases hr : r = (ov.label hid).toNat
        · subst hr
          simp [mergeParts, hmh, hmt2, hne, hne', Function.update_noteq]
        · by_cases hr2 : r = (ov.label tid).toNat
          · subst hr2
            simp [mergeParts, hmh, hmt2, hne, hne', hr, Function.update_noteq]
          · simp [mergeParts, hmh, hmt2, hne, hne', hr, hr2, Function.update_noteq]
      · have heval : (mergeParts ov hid tid).label =
            List.foldl (fun f i => Function.update f i (f hid)) ov.label ([hid] ++ lt) := by
          simp [mergeParts, hmh, hmt2, hne, hne', Function.update_noteq]
        rw [heval, relabel_foldl]
      · simp [mergeParts]
  · obtain ⟨lh, hmh2⟩ := Option.ne_none_iff_exists'.mp hmh
    by_cases hmt : ov.nodes ((ov.label tid).toNat) = none
    · refine ⟨lh ++ [tid], ?_, ?_, ?_, ?_⟩
      · intro i
        simp [hmh2, hmt]
      · funext r
        by_cases hr : r = (ov.label hid).toNat
        · subst hr
          simp [mergeParts, hmh2, hmt, hne', Function.update_noteq]
        · by_cases hr2 : r = (ov.label tid).toNat
          · subst hr2
            simp [mergeParts, hmh2, hmt, hne', hr, Function.update_noteq]
          · simp [mergeParts, hmh2, hmt, hne', hr, hr2, Function.update_noteq]
      · have heval : (mergeParts ov hid tid).label =
            List.foldl (fun f i => Function.update f i (f hid)) ov.label (lh ++ [tid]) := by
          simp [mergeParts, hmh2, hmt, hne', Function.update_noteq]
        rw [heval, relabel_foldl]
      · simp [mergeParts]
    · obtain ⟨lt, hmt2⟩ := Option.ne_none_iff_exists'.mp hmt
      refine ⟨lh ++ lt, ?_, ?_, ?_, ?_⟩
      · intro i
        simp [hmh2, hmt2]
      · funext r
        by_cases hr : r = (ov.label hid).toNat
        · subst hr
          simp [mergeParts, hmh2, hmt2, hne, hne', Function.update_noteq]
        · by_cases hr2 : r = (ov.label tid).toNat
          · subst hr2
            simp [mergeParts, hmh2, hmt2, hne, hne', hr, Function.update_noteq]
          · simp [mergeParts, hmh2, hmt2, hne, hne', hr, hr2, Function.update_noteq]
      · have heval : (mergeParts ov hid tid).label =
            List.foldl (fun f i => Function.update f i (f hid)) ov.label (lh ++ lt) := by
          simp [mergeParts, hmh2, hmt2, hne, hne', Function.update_noteq]
        rw [heval, relabel_foldl]
      · simp [mergeParts]

theorem mergeParts_inv (g : UGraph) (ov : Contraction) (inv : ContractInv g ov)
    (hid tid : ℕ) (hhid : hid ∈ g.nodes) (htid : tid ∈ g.nodes)
    (hne : ov.label hid ≠ ov.label tid) :
    ContractInv g (mergeParts ov hid tid) := by
  have hnnH := inv.labNonneg hid hhid
  have hnnT := inv.labNonneg tid htid
  set HL := (ov.label hid).toNat with hHLdef
  set TL := (ov.label tid).toNat with hTLdef
  have hHLv : ov.label hid = (HL : ℤ) := (Int.toNat_of_nonneg hnnH).symm
  have hTLv : ov.label tid = (TL : ℤ) := (Int.toNat_of_nonneg hnnT).symm
  have hneN : HL ≠ TL := by
    intro h
    apply hne
    rw [hHLv, hTLv, h]
  obtain ⟨M, hM, hnodes, hlabel, horder⟩ := mergeParts_shape ov hid tid hneN
  have hnodes' : ∀ r, (mergeParts ov hid tid).nodes r =
      if r = HL then some M else if r = TL then none else ov.nodes r :=
    fun r => congrFun hnodes r
  have hlab' : ∀ j, (mergeParts ov hid tid).label j =
      if j ∈ M then ov.label hid else ov.label j :=
    fun j => congrFun hlabel j
  have hHLmem : HL ∈ g.nodes := inv.labMem hid hhid
  have hTLmem : TL ∈ g.nodes := inv.labMem tid htid
  have hlabHL : ov.label HL = ov.label hid := inv.labIdem hid hhid
  have hlabTL : ov.label TL = ov.label tid := inv.labIdem tid htid
  have hrepHL : (ov.label HL).toNat = HL := by rw [hlabHL]
  have hrepTL : (ov.label TL).toNat = TL := by rw [hlabTL]
  have hliveHL : ∃ i ∈ g.nodes, (ov.label i).toNat = HL := ⟨hid, hhid, rfl⟩
  have hliveTL : ∃ i ∈ g.nodes, (ov.label i).toNat = TL := ⟨tid, htid, rfl⟩
  have hMc : ∀ i, i ∈ M ↔
      (i ∈ g.nodes ∧ ((ov.label i).toNat = HL ∨ (ov.label i).toNat = TL)) := by
    intro i
    rw [hM i]
    constructor
    · rintro (⟨hn, rfl⟩ | ⟨lh, hsome, hmem⟩ | ⟨hn, rfl⟩ | ⟨lt, hsome, hmem⟩)
      · exact ⟨hhid, Or.inl rfl⟩
      · obtain ⟨hin, hrep⟩ := (inv.memSome HL hHLmem hliveHL lh hsome i).mp hmem
        exact ⟨hin, Or.inl hrep⟩
      · exact ⟨htid, Or.inr rfl⟩
      · obtain ⟨hin, hrep⟩ := (inv.memSome TL hTLmem hliveTL lt hsome i).mp hmem
        exact ⟨hin, Or.inr hrep⟩
    · rintro ⟨hin, hrep | hrep⟩
      · cases hcase : ov.nodes HL with
        | none =>
          have hsing := inv.memNone HL hHLmem hliveHL hcase
          have h1 : i = HL := (hsing i hin).mp hrep
          have h2 : hid = HL := (hsing hid hhid).mp rfl
          exact Or.inl ⟨rfl, by rw [h1, h2]⟩
        | some lh =>
          exact Or.inr (Or.inl ⟨lh, rfl,
            (inv.memSome HL hHLmem hliveHL lh hcase i).mpr ⟨hin, hrep⟩⟩)
      · cases hcase : ov.nodes TL with
        | none =>
          have hsing := inv.memNone TL hTLmem hliveTL hcase
          have h1 : i = TL := (hsing i hin).mp hrep
          have h2 : tid = TL := (hsing tid htid).mp rfl
          exact Or.inr (Or.inr (Or.inl ⟨rfl, by rw [h1, h2]⟩))
        | some lt =>
          exact Or.inr (Or.inr (Or.inr ⟨lt, rfl,
            (inv.memSome TL hTLmem hliveTL lt hcase i).mpr ⟨hin, hrep⟩⟩))
  have hrep' : ∀ j ∈ g.nodes, ((mergeParts ov hid tid).label j).toNat =
      if ((ov.label j).toNat = HL ∨ (ov.label j).toNat = TL) then HL
      else (ov.label j).toNat := by
    intro j hj
    rw [hlab' j]
    by_cases hjm : j ∈ M
    · rw [if_pos hjm, if_pos ((hMc j).mp hjm).2]
    · rw [if_neg hjm, if_neg (fun hor => hjm ((hMc j).mpr ⟨hj, hor⟩))]
  have hHLinM : HL ∈ M := (hMc HL).mpr ⟨hHLmem, Or.inl hrepHL⟩
  have hdead : ∀ j ∈ g.nodes, ((mergeParts ov hid tid).label j).toNat ≠ TL := by
    intro j hj
    rw [hrep' j hj]
    by_cases hcond : ((ov.label j).toNat = HL ∨ (ov.label j).toNat = TL)
    · rw [if_pos hcond]
      exact hneN
    · rw [if_neg hcond]
      exact fun h => hcond (Or.inr h)
  have hreps : labReps g (mergeParts ov hid tid) = (labReps g ov).erase TL := by
    unfold labReps
    apply Finset.ext
    intro x
    simp only [Finset.mem_image, Finset.mem_erase, List.mem_toFinset]
    constructor
    · rintro ⟨j, hj, rfl⟩
      rw [hrep' j hj]
      by_cases hcond : ((ov.label j).toNat = HL ∨ (ov.label j).toNat = TL)
      · rw [if_pos hcond]
        exact ⟨hneN, ⟨hid, hhid, rfl⟩⟩
      · rw [if_neg hcond]
        exact ⟨fun h => hcond (Or.inr h), ⟨j, hj, rfl⟩⟩
    · rintro ⟨hxTL, j, hj, rfl⟩
      by_cases hcond : (ov.label j).toNat = HL
      · refine ⟨hid, hhid, ?_⟩
        rw [hrep' hid hhid, if_pos (Or.inl rfl), hcond]
      · refine ⟨j, hj, ?_⟩
        rw [hrep' j hj, if_neg ?_]
        rintro (h | h)
        · exact hcond h
        · exact hxTL h
  have hTLin : TL ∈ labReps g ov :=
    Finset.mem_image.mpr ⟨tid, List.mem_toFinset.mpr htid, rfl⟩
  refine ⟨?_, ?_, ?_, ?_, ?_, ?_⟩
  · -- labMem
    intro i hi
    rw [hrep' i hi]
    by_cases hcond : ((ov.label i).toNat = HL ∨ (ov.label i).toNat = TL)
    · rw [if_pos hcond]
      exact hHLmem
    · rw [if_neg hcond]
      exact inv.labMem i hi
  · -- labNonneg
    intro i hi
    rw [hlab' i]
    by_cases him : i ∈ M
    · rw [if_pos him]
      exact hnnH
    · rw [if_neg him]
      exact inv.labNonneg i hi
  · -- labIdem
    intro i hi
    rw [hrep' i hi]
    by_cases hcond : ((ov.label i).toNat = HL ∨ (ov.label i).toNat = TL)
    · rw [if_pos hcond]
      rw [hlab' HL, if_pos hHLinM, hlab' i, if_pos ((hMc i).mpr ⟨hi, hcond⟩)]
    · rw [if_neg hcond]
      have hrepi : (ov.label ((ov.label i).toNat)).toNat = (ov.label i).toNat := by
        rw [inv.labIdem i hi]
      have hnotM : (ov.label i).toNat ∉ M := by
        intro hmm
        obtain ⟨-, hor⟩ := (hMc _).mp hmm
        rw [hrepi] at hor
        exact hcond hor
      have hinotM : i ∉ M := fun hmm => hcond ((hMc i).mp hmm).2
      rw [hlab' _, if_neg hnotM, hlab' i, if_neg hinotM]
      exact inv.labIdem i hi
  · -- repCard
    rw [hreps, Finset.card_erase_of_mem hTLin, inv.repCard, horder]
  · -- memNone
    intro r hr hlive hnone
    rw [hnodes' r] at hnone
    by_cases hrHL : r = HL
    · rw [if_pos hrHL] at hnone
      exact absurd hnone (by simp)
    · rw [if_neg hrHL] at hnone
      by_cases hrTL : r = TL
      · exfalso
        obtain ⟨i, hi, hrepi⟩ := hlive
        exact hdead i hi (hrTL ▸ hrepi)
      · rw [if_neg hrTL] at hnone
        have hliveOld : ∃ i ∈ g.nodes, (ov.label i).toNat = r := by
          obtain ⟨i, hi, hrepi⟩ := hlive
          rw [hrep' i hi] at hrepi
          by_cases hcond : ((ov.label i).toNat = HL ∨ (ov.label i).toNat = TL)
          · rw [if_pos hcond] at hrepi
            exact absurd hrepi.symm hrHL
          · rw [if_neg hcond] at hrepi
            exact ⟨i, hi, hrepi⟩
        have hsing := inv.memNone r hr hliveOld hnone
        intro i hi
        constructor
        · intro hrepi
          rw [hrep' i hi] at hrepi
          by_cases hcond : ((ov.label i).toNat = HL ∨ (ov.label i).toNat = TL)
          · rw [if_pos hcond] at hrepi
            exact absurd hrepi.symm hrHL
          · rw [if_neg hcond] at hrepi
            exact (hsing i hi).mp hrepi
        · intro hir
          subst hir
          have hrr : (ov.label i).toNat = i := (hsing i hi).mp ((hsing i hi).mpr rfl) ▸ ((hsing i hi).mpr rfl)
          rw [hrep' i hi, if_neg ?_]
          · exact hrr
          · rw [hrr]
            rintro (h | h)
            · exact hrHL h
            · exact hrTL h
  · -- memSome
    intro r hr hlive l hsome
    rw [hnodes' r] at hsome
    by_cases hrHL : r = HL
    · subst hrHL
      rw [if_pos rfl] at hsome
      have hlM : l = M := by
        injection hsome with h
        exact h.symm
      subst hlM
      intro i
      rw [hMc i]
      constructor
      · rintro ⟨hin, hcond⟩
        refine ⟨hin, ?_⟩
        rw [hrep' i hin, if_pos hcond]
      · rintro ⟨hin, hrepi⟩
        refine ⟨hin, ?_⟩
        rw [hrep' i hin] at hrepi
        by_cases hcond : ((ov.label i).toNat = HL ∨ (ov.label i).toNat = TL)
        · exact hcond
        · rw [if_neg hcond] at hrepi
          exact Or.inl hrepi
    · rw [if_neg hrHL] at hsome
      by_cases hrTL : r = TL
      · rw [if_pos hrTL] at hsome
        exact absurd hsome (by simp)
      · rw [if_neg hrTL] at hsome
        have hliveOld : ∃ i ∈ g.nodes, (ov.label i).toNat = r := by
          obtain ⟨i, hi, hrepi⟩ := hlive
          rw [hrep' i hi] at hrepi
          by_cases hcond : ((ov.label i).toNat = HL ∨ (ov.label i).toNat = TL)
          · rw [if_pos hcond] at hrepi
            exact absurd hrepi.symm hrHL
          · rw [if_neg hcond] at hrepi
            exact ⟨i, hi, hrepi⟩
        have hold := inv.memSome r hr hliveOld l hsome
        intro i
        rw [hold i]
        constructor
        · rintro ⟨hin, hrepi⟩
          refine ⟨hin, ?_⟩
          rw [hrep' i hin, if_neg ?_]
          · exact hrepi
          · rw [hrepi]
            rintro (h | h)
            · exact hrHL h
            · exact hrTL h
        · rintro ⟨hin, hrepi⟩
          refine ⟨hin, ?_⟩
          rw [hrep' i hin] at hrepi
          by_cases hcond : ((ov.label i).toNat = HL ∨ (ov.label i).toNat = TL)
          · rw [if_pos hcond] at hrepi
            exact absurd hrepi.symm hrHL
          · rw [if_neg hcond] at hrepi
            exact hrepi

theorem mergeParts_order (ov : Contraction) (hid tid : ℕ) :
    (mergeParts ov hid tid).order = ov.order - 1 := by
  simp [mergeParts]

theorem mergeEdge_order (ov : Contraction) (e : GEdge) :
    (mergeEdge ov e).order = ov.order - 1 := by
  unfold mergeEdge
  split
  · exact mergeParts_order _ _ _
  · exact mergeParts_order _ _ _

theorem mergeEdge_inv (g : UGraph) (hWF : g.WF) (ov : Contraction) (inv : ContractInv g ov)
    (e : GEdge) (he : e ∈ g.edges) (hnl : ov.label e.v ≠ ov.label e.u) :
    ContractInv g (mergeEdge ov e) := by
  obtain ⟨hu, hv⟩ := hWF.2.1 e he
  unfold mergeEdge
  split
  · exact mergeParts_inv g ov inv e.u e.v hu hv (Ne.symm hnl)
  · exact mergeParts_inv g ov inv e.v e.u hv hu hnl

theorem contractInv_init (g : UGraph) (hWF : g.WF) : ContractInv g (initContraction g) := by
  have hlab : ∀ i ∈ g.nodes, (initContraction g).label i = (i : ℤ) := by
    intro i hi
    show initLabel g i = (i : ℤ)
    rw [initLabel_eq, if_pos hi]
  refine ⟨?_, ?_, ?_, ?_, ?_, ?_⟩
  · intro i hi
    rw [hlab i hi]
    simpa using hi
  · intro i hi
    rw [hlab i hi]
    exact Int.natCast_nonneg i
  · intro i hi
    rw [hlab i hi]
    have h1 : ((i : ℤ)).toNat = i := by simp
    rw [h1, hlab i hi]
  · unfold labReps
    have himg : g.nodes.toFinset.image (fun i => ((initContraction g).label i).toNat) =
        g.nodes.toFinset := by
      apply Finset.ext
      intro x
      simp only [Finset.mem_image, List.mem_toFinset]
      constructor
      · rintro ⟨j, hj, rfl⟩
        rw [hlab j hj]
        simpa using hj
      · intro hx
        exact ⟨x, hx, by rw [hlab x hx]; simp⟩
    rw [himg, List.toFinset_card_of_nodup hWF.1]
    rfl
  · intro r hr hlive hnone i hi
    have h1 : ((initContraction g).label i).toNat = i := by
      rw [hlab i hi]
      simp
    rw [h1]
  · intro r hr hlive l hsome
    exact absurd hsome (by simp [initContraction])

theorem reach_inv (g : UGraph) (hWF : g.WF) (ov : Contraction) (h : ContractionReach g ov) :
    ContractInv g ov := by
  induction h with
  | init => exact contractInv_init g hWF
  | merge ov e hr he hnl ih => exact mergeEdge_inv g hWF ov ih e he hnl

theorem distinctLabels_eq_repCard (g : UGraph) (ov : Contraction)
    (hnn : ∀ i ∈ g.nodes, 0 ≤ ov.label i) :
    distinctLabels g ov = (labReps g ov).card := by
  unfold distinctLabels labReps
  have hmapfin : (g.nodes.map ov.label).toFinset = g.nodes.toFinset.image ov.label := by
    ext x
    simp
  rw [← List.card_toFinset, hmapfin]
  have himg : g.nodes.toFinset.image (fun i => (ov.label i).toNat) =
      (g.nodes.toFinset.image ov.label).image Int.toNat := by
    rw [Finset.image_image]
    rfl
  have hinj : Set.InjOn Int.toNat (g.nodes.toFinset.image ov.label) := by
    intro a ha b hb hab
    simp only [Finset.coe_image, Set.mem_image, Finset.mem_coe, List.mem_toFinset] at ha hb
    obtain ⟨i, hi, rfl⟩ := ha
    obtain ⟨j, hj, rfl⟩ := hb
    have h1 := hnn i hi
    have h2 := hnn j hj
    omega
  rw [himg, Finset.card_image_of_injOn hinj]

/-- C3: after every successful merge performed during contraction
(a reachable overlay state extended by one merge of a non-loop graph
edge), the multiset of node labels has exactly `order` distinct values,
and following `label` once reaches the representative:
`label[label[i]] = label[i]` for every graph node id `i`. -/
theorem randContract_merge_invariants (g : UGraph) (hWF : g.WF) (ov : Contraction)
    (hreach : ContractionReach g ov) (e : GEdge) (he : e ∈ g.edges)
    (hnl : ov.label e.v ≠ ov.label e.u) :
    distinctLabels g (mergeEdge ov e) = (mergeEdge ov e).order ∧
      ∀ i ∈ g.nodes,
        (mergeEdge ov e).label (((mergeEdge ov e).label i).toNat) =
          (mergeEdge ov e).label i := by
  have hinv : ContractInv g (mergeEdge ov e) :=
    reach_inv g hWF _ (ContractionReach.merge ov e hreach he hnl)
  exact ⟨(distinctLabels_eq_repCard g _ hinv.labNonneg).trans hinv.repCard, hinv.labIdem⟩

theorem randContract_merge_invariants_witness :
    distinctLabels gTri (mergeEdge (initContraction gTri) ⟨0, 0, 1, 1⟩) =
        (mergeEdge (initContraction gTri) ⟨0, 0, 1, 1⟩).order ∧
      ∀ i ∈ gTri.nodes,
        (mergeEdge (initContraction gTri) ⟨0, 0, 1, 1⟩).label
            (((mergeEdge (initContraction gTri) ⟨0, 0, 1, 1⟩).label i).toNat) =
          (mergeEdge (initContraction gTri) ⟨0, 0, 1, 1⟩).label i :=
  randContract_merge_invariants gTri (by decide) (initContraction gTri)
    ContractionReach.init ⟨0, 0, 1, 1⟩ (by decide) (by decide)

/-! ## C4: a returned cut is valid -/

theorem ceilDivSqrt2_pos (n : ℕ) (hn : 1 ≤ n) : 1 ≤ ceilDivSqrt2 n := by
  unfold ceilDivSqrt2
  cases hf : (List.range (n + 1)).find? (fun m => decide (n ^ 2 ≤ 2 * m ^ 2)) with
  | none => simpa using hn
  | some m =>
    simp only [Option.getD_some]
    have hpred := List.find?_some hf
    simp only [decide_eq_true_eq] at hpred
    rcases Nat.eq_zero_or_pos m with rfl | h
    · exfalso
      have h1 : 1 ≤ n ^ 2 := Nat.one_le_pow _ _ hn
      omega
    · exact h

theorem contractTarget_ge_two (n : ℕ) (hn : 1 ≤ n) : 2 ≤ contractTarget n := by
  unfold contractTarget
  have := ceilDivSqrt2_pos n hn
  omega

theorem randContract_reach (g : UGraph) (rs : ℕ → ℚ) (k : ℕ) (fuel : ℕ) :
    ∀ (st : KargerR) (pos : ℕ) (st1 : KargerR) (p1 : ℕ),
      randContract g rs k fuel st pos = some (st1, p1) →
      ContractionReach g st.ov →
      ContractionReach g st1.ov ∧ min st.ov.order k ≤ st1.ov.order ∧
        st1.c = st.c ∧ st1.w = st.w := by
  induction fuel with
  | zero =>
    intro st pos st1 p1 h
    rw [randContract] at h
    simp at h
  | succ n ih =>
    intro st pos st1 p1 h hreach
    rw [randContract, dif_neg (Nat.succ_ne_zero n)] at h
    by_cases hord : ¬ st.ov.order > k
    · rw [if_pos hord] at h
      simp only [Option.some.injEq, Prod.mk.injEq] at h
      obtain ⟨rfl, rfl⟩ := h
      exact ⟨hreach, by omega, rfl, rfl⟩
    · rw [if_neg hord] at h
      cases hs : st.sel.Select (rs pos) with
      | none => rw [hs] at h; simp at h
      | some res =>
        rw [hs] at h
        obtain ⟨id, sel1, err⟩ := res
        cases err with
        | some e0 =>
          simp only [Option.some.injEq, Prod.mk.injEq] at h
          obtain ⟨rfl, rfl⟩ := h
          refine ⟨hreach, ?_, rfl, rfl⟩
          show min st.ov.order k ≤ st.ov.order
          omega
        | none =>
          simp only at h
          cases hf : g.findEdge id with
          | none => rw [hf] at h; simp at h
          | some e =>
            rw [hf] at h
            simp only at h
            have hmem : e ∈ g.edges := List.mem_of_find?_eq_some hf
            by_cases hloop : st.ov.label e.v = st.ov.label e.u
            · rw [if_pos hloop] at h
              have hrec := ih _ _ _ _ h hreach
              have hmin : min st.ov.order k ≤ st1.ov.order := hrec.2.1
              exact ⟨hrec.1, hmin, hrec.2.2.1, hrec.2.2.2⟩
            · rw [if_neg hloop] at h
              have hreach2 : ContractionReach g (mergeEdge st.ov e) :=
                ContractionReach.merge _ _ hreach hmem hloop
              have hrec := ih _ _ _ _ h hreach2
              have hmin : min (mergeEdge st.ov e).order k ≤ st1.ov.order := hrec.2.1
              rw [mergeEdge_order st.ov e] at hmin
              refine ⟨hrec.1, ?_, hrec.2.2.1, hrec.2.2.2⟩
              omega
              
theorem randCompact_valid (g : UGraph) (rs : ℕ → ℚ) (k fuel : ℕ)
    (st : KargerR) (pos : ℕ) (st1 : KargerR) (p1 : ℕ)
    (h : randCompact g rs k fuel st pos = some (st1, p1))
    (hreach : ContractionReach g st.ov) :
    ContractionReach g st1.ov ∧ min st.ov.order k ≤ st1.ov.order ∧
      st1.c = cutEdges g st1.ov ∧ st1.w = cutWeight g st1.ov := by
  unfold randCompact at h
  cases hc : randContract g rs k fuel st pos with
  | none => rw [hc] at h; simp at h
  | some r2 =>
    rw [hc] at h
    obtain ⟨st2, p2⟩ := r2
    simp only [Option.some.injEq, Prod.mk.injEq] at h
    obtain ⟨rfl, rfl⟩ := h
    have hrec := randContract_reach g rs k fuel st pos st2 p2 hc hreach
    exact ⟨hrec.1, hrec.2.1, rfl, rfl⟩

theorem fastRandMinCut_valid (g : UGraph) (rs : ℕ → ℚ) (fuel : ℕ) :
    ∀ (st : KargerR) (pos : ℕ) (st1 : KargerR) (p1 : ℕ),
      KargerR.fastRandMinCut g rs fuel st pos = some (st1, p1) →
      ContractionReach g st.ov → 2 ≤ st.ov.order →
      ContractionReach g st1.ov ∧ 2 ≤ st1.ov.order ∧
        st1.c = cutEdges g st1.ov ∧ st1.w = cutWeight g st1.ov := by
  induction fuel with
  | zero =>
    intro st pos st1 p1 h
    rw [KargerR.fastRandMinCut] at h
    simp at h
  | succ n ih =>
    intro st pos st1 p1 h hreach hord
    rw [KargerR.fastRandMinCut, dif_neg (Nat.succ_ne_zero n)] at h
    by_cases h6 : st.ov.order ≤ 6
    · rw [if_pos h6] at h
      have hrec := randCompact_valid g rs 2 (n + 1) st pos st1 p1 h hreach
      exact ⟨hrec.1, by omega, hrec.2.2.1, hrec.2.2.2⟩
    · rw [if_neg h6] at h
      simp only at h
      cases hc0 : randContract g rs (contractTarget st.ov.order) (n + 1) st pos with
      | none => rw [hc0] at h; simp at h
      | some r0 =>
        rw [hc0] at h
        obtain ⟨s0, p0⟩ := r0
        simp only [Nat.add_sub_cancel] at h
        have ht2 : 2 ≤ contractTarget st.ov.order := contractTarget_ge_two _ (by omega)
        have hg0 := randContract_reach g rs _ _ _ _ _ _ hc0 hreach
        cases hr0 : KargerR.fastRandMinCut g rs n s0 p0 with
        | none => rw [hr0] at h; simp at h
        | some r0f =>
          rw [hr0] at h
          obtain ⟨s0f, p0f⟩ := r0f
          simp only at h
          have hgood0 := ih _ _ _ _ hr0 hg0.1 (by
            have := hg0.2.1
            omega)
          cases hc1 : randContract g rs (contractTarget st.ov.order) (n + 1) (cloneR st) p0f with
          | none => rw [hc1] at h; simp at h
          | some r1 =>
            rw [hc1] at h
            obtain ⟨s1, p1'⟩ := r1
            simp only at h
            have hg1 := randContract_reach g rs _ _ _ _ _ _ hc1 (by
              show ContractionReach g (cloneR st).ov
              exact hreach)
            cases hr1 : KargerR.fastRandMinCut g rs n s1 p1' with
            | none => rw [hr1] at h; simp at h
            | some r1f =>
              rw [hr1] at h
              obtain ⟨s1f, p1f⟩ := r1f
              simp only at h
              have hgood1 := ih _ _ _ _ hr1 hg1.1 (by
                have := hg1.2.1
                show 2 ≤ s1.ov.order
                have hco : (cloneR st).ov.order = st.ov.order := rfl
                omega)
              simp only [Option.some.injEq, Prod.mk.injEq] at h
              obtain ⟨hst1, rfl⟩ := h
              by_cases hcmp : s0f.w < s1f.w
              · rw [if_pos hcmp] at hst1
                subst hst1
                exact hgood0
              · rw [if_neg hcmp] at hst1
                subst hst1
                exact hgood1

theorem fastRandMinCutLoop_valid (g : UGraph) (rs : ℕ → ℚ) (fuel : ℕ) :
    ∀ (n : ℕ) (st : KargerR) (pos : ℕ) (best res : Option (List GEdge × ℚ)),
      fastRandMinCutLoop g rs fuel n st pos best = some res →
      ContractionReach g st.ov → 2 ≤ st.ov.order →
      (∀ cw, best = some cw → ValidCut g cw) →
      (∀ cw, res = some cw → ValidCut g cw) ∧ ((1 ≤ n ∨ best.isSome) → res.isSome) := by
  intro n
  induction n with
  | zero =>
    intro st pos best res h hreach hord hbest
    rw [fastRandMinCutLoop, dif_pos rfl] at h
    simp only [Option.some.injEq] at h
    subst h
    refine ⟨hbest, ?_⟩
    rintro (h1 | h1)
    · omega
    · exact h1
  | succ m ih =>
    intro st pos best res h hreach hord hbest
    rw [fastRandMinCutLoop, dif_neg (Nat.succ_ne_zero m)] at h
    cases hr : KargerR.fastRandMinCut g rs fuel st pos with
    | none => rw [hr] at h; simp at h
    | some r1 =>
      rw [hr] at h
      obtain ⟨stn, pn⟩ := r1
      simp only [Nat.add_sub_cancel] at h
      have hgood := fastRandMinCut_valid g rs fuel st pos stn pn hr hreach hord
      have hvalidn : ValidCut g (stn.c, stn.w) :=
        ⟨stn.ov, hgood.1, hgood.2.1, hgood.2.2.1, hgood.2.2.2⟩
      cases best with
      | none =>
        simp only at h
        have hrec := ih stn pn (some (stn.c, stn.w)) res h hgood.1 hgood.2.1 (by
          intro cw hcw
          simp only [Option.some.injEq] at hcw
          subst hcw
          exact hvalidn)
        exact ⟨hrec.1, fun _ => hrec.2 (Or.inr rfl)⟩
      | some bw =>
        simp only at h
        by_cases hcmp : stn.w < bw.2
        · rw [if_pos hcmp] at h
          have hrec := ih stn pn (some (stn.c, stn.w)) res h hgood.1 hgood.2.1 (by
            intro cw hcw
            simp only [Option.some.injEq] at hcw
            subst hcw
            exact hvalidn)
          exact ⟨hrec.1, fun _ => hrec.2 (Or.inr rfl)⟩
        · rw [if_neg hcmp] at h
          have hrec := ih stn pn (some bw) res h hgood.1 hgood.2.1 (by
            intro cw hcw
            simp only [Option.some.injEq] at hcw
            subst hcw
            exact hbest bw rfl)
          exact ⟨hrec.1, fun _ => hrec.2 (Or.inr rfl)⟩

theorem not_mem_cutEdges (g : UGraph) (ov : Contraction) (e : GEdge)
    (he : e ∈ g.edges) (hnc : e ∉ cutEdges g ov) :
    ov.label e.v = ov.label e.u := by
  by_contra h
  exact hnc (List.mem_filter.mpr ⟨he, by simpa using h⟩)

theorem connIn_label_eq (g : UGraph) (ov : Contraction) (cut : List GEdge)
    (hkeep : ∀ e ∈ g.edges, e ∉ cut → ov.label e.v = ov.label e.u) :
    ∀ a b, ConnIn g (fun e => e ∉ cut) a b → ov.label a = ov.label b := by
  intro a b h
  induction h with
  | refl ha => rfl
  | tail b c e hab he hkeepe hends ih =>
    have hlab := hkeep e he hkeepe
    rcases hends with ⟨hu, hv⟩ | ⟨hv, hu⟩
    · rw [ih, ← hu, ← hv]
      exact hlab.symm
    · rw [ih, ← hv, ← hu]
      exact hlab

theorem exists_diff_label (g : UGraph) (ov : Contraction) (inv : ContractInv g ov)
    (h2 : 2 ≤ ov.order) :
    ∃ a ∈ g.nodes, ∃ b ∈ g.nodes, ov.label a ≠ ov.label b := by
  have hcard : 1 < (labReps g ov).card := by
    rw [inv.repCard]
    omega
  obtain ⟨x, hx, y, hy, hxy⟩ := Finset.one_lt_card.mp hcard
  unfold labReps at hx hy
  rw [Finset.mem_image] at hx hy
  obtain ⟨i, hi, rfl⟩ := hx
  obtain ⟨j, hj, rfl⟩ := hy
  rw [List.mem_toFinset] at hi hj
  refine ⟨i, hi, j, hj, ?_⟩
  intro heq
  exact hxy (by rw [heq])

/-- C4 (amended): for every well-formed graph with at least two nodes
and `iter ≥ 1`, whenever `FastRandMinCut` returns, the returned weight
is the sum of the returned edges' weights, no returned edge is a
self-loop, and removing the returned edges from `g` leaves at least two
connected components. -/
theorem fastRandMinCut_valid_cut (g : UGraph) (rs : ℕ → ℚ) (iter fuel : ℕ)
    (hWF : g.WF) (hn : 2 ≤ g.nodes.length) (hiter : 1 ≤ iter)
    (c : List GEdge) (w : ℚ)
    (hrun : FastRandMinCut g rs iter fuel = some (some (c, w))) :
    w = (c.map GEdge.weight).sum ∧ (∀ e ∈ c, e.u ≠ e.v) ∧ TwoComponents g c := by
  unfold FastRandMinCut at hrun
  have hord0 : 2 ≤ (kargerInit g).ov.order := by
    show 2 ≤ (initContraction g).order
    unfold initContraction UGraph.Order
    exact hn
  have hloop := fastRandMinCutLoop_valid g rs fuel iter (kargerInit g) 0 none _ hrun
    ContractionReach.init hord0 (by intro cw hcw; simp at hcw)
  obtain ⟨ov, hreach, hord, hc, hw⟩ := hloop.1 (c, w) rfl
  simp only at hc hw
  have hinv := reach_inv g hWF ov hreach
  refine ⟨?_, ?_, ?_⟩
  · rw [hw, hc]
    rfl
  · intro e he
    rw [hc] at he
    have hmem := List.mem_filter.mp he
    intro huv
    have : ov.label e.v = ov.label e.u := by rw [huv]
    simp [this] at hmem
  · obtain ⟨a, ha, b, hb, hab⟩ := exists_diff_label g ov hinv hord
    refine ⟨a, ha, b, hb, ?_⟩
    intro hconn
    apply hab
    apply connIn_label_eq g ov c _ a b hconn
    intro e he hnc
    apply not_mem_cutEdges g ov e he
    rw [hc] at hnc
    exact hnc

theorem randContract_stop (g : UGraph) (rs : ℕ → ℚ) (k fuel : ℕ) (st : KargerR) (pos : ℕ)
    (hf : fuel ≠ 0) (h : ¬ st.ov.order > k) :
    randContract g rs k fuel st pos = some (st, pos) := by
  rw [randContract, dif_neg hf, if_pos h]

theorem randCompact_stop (g : UGraph) (rs : ℕ → ℚ) (k fuel : ℕ) (st : KargerR) (pos : ℕ)
    (hf : fuel ≠ 0) (h : ¬ st.ov.order > k) :
    randCompact g rs k fuel st pos =
      some ({ st with c := cutEdges g st.ov, w := cutWeight g st.ov }, pos) := by
  unfold randCompact
  rw [randContract_stop g rs k fuel st pos hf h]

theorem fastRandMinCut_base (g : UGraph) (rs : ℕ → ℚ) (fuel : ℕ) (st : KargerR) (pos : ℕ)
    (hf : fuel ≠ 0) (h : st.ov.order ≤ 6) :
    KargerR.fastRandMinCut g rs fuel st pos = randCompact g rs 2 fuel st pos := by
  rw [KargerR.fastRandMinCut, dif_neg hf, if_pos h]

theorem fastRandMinCutLoop_zero (g : UGraph) (rs : ℕ → ℚ) (fuel : ℕ) (st : KargerR)
    (pos : ℕ) (best : Option (List GEdge × ℚ)) :
    fastRandMinCutLoop g rs fuel 0 st pos best = some best := by
  rw [fastRandMinCutLoop]
  simp

/-- C4 counterexample to the claim as stated: on the well-formed
single-node graph `gOne` (with `iter = 1`), `FastRandMinCut` returns the
empty cut of weight 0, but removing it does not leave two connected
components — the claim's universal quantification over every graph
fails. -/
theorem fastRandMinCut_single_node_not_cut :
    gOne.WF ∧ FastRandMinCut gOne rsZ 1 1 = some (some ([], 0)) ∧
      ¬ TwoComponents gOne [] := by
  refine ⟨by decide, ?_, ?_⟩
  · unfold FastRandMinCut
    rw [fastRandMinCutLoop, dif_neg one_ne_zero]
    rw [fastRandMinCut_base gOne rsZ 1 (kargerInit gOne) 0 one_ne_zero (by decide)]
    rw [randCompact_stop gOne rsZ 2 1 (kargerInit gOne) 0 one_ne_zero (by decide)]
    show fastRandMinCutLoop gOne rsZ 1 0 _ 0
      (some (cutEdges gOne (kargerInit gOne).ov, cutWeight gOne (kargerInit gOne).ov)) =
      some (some ([], 0))
    rw [fastRandMinCutLoop_zero]
    simp [cutEdges, cutWeight, gOne]
  · rintro ⟨a, ha, b, hb, hnconn⟩
    simp only [gOne, List.mem_singleton] at ha hb
    subst ha
    subst hb
    exact hnconn (ConnIn.refl 0 (by simp [gOne]))

theorem fastRandMinCut_valid_cut_witness :
    (gTwo.WF ∧ 2 ≤ gTwo.nodes.length ∧ (1 : ℕ) ≤ 1 ∧
        FastRandMinCut gTwo rsZ 1 2 = some (some ([⟨0, 0, 1, 1⟩], 1))) ∧
      ((1 : ℚ) = (([⟨0, 0, 1, 1⟩] : List GEdge).map GEdge.weight).sum ∧
        (∀ e ∈ ([⟨0, 0, 1, 1⟩] : List GEdge), e.u ≠ e.v) ∧
        TwoComponents gTwo [⟨0, 0, 1, 1⟩]) := by
  have hrun : FastRandMinCut gTwo rsZ 1 2 = some (some ([⟨0, 0, 1, 1⟩], 1)) := by
    unfold FastRandMinCut
    rw [fastRandMinCutLoop, dif_neg one_ne_zero]
    rw [fastRandMinCut_base gTwo rsZ 2 (kargerInit gTwo) 0 two_ne_zero (by decide)]
    rw [randCompact_stop gTwo rsZ 2 2 (kargerInit gTwo) 0 two_ne_zero (by decide)]
    show fastRandMinCutLoop gTwo rsZ 2 0 _ 0
      (some (cutEdges gTwo (kargerInit gTwo).ov, cutWeight gTwo (kargerInit gTwo).ov)) =
      some (some ([⟨0, 0, 1, 1⟩], 1))
    rw [fastRandMinCutLoop_zero]
    have hcut : cutEdges gTwo (kargerInit gTwo).ov = [⟨0, 0, 1, 1⟩] := by decide
    rw [hcut]
    norm_num [cutWeight, hcut]
  exact ⟨⟨by decide, by decide, le_rfl, hrun⟩,
    fastRandMinCut_valid_cut gTwo rsZ 1 2 (by decide) (by decide) le_rfl _ _ hrun⟩

/-! ## C1: the context is not re-initialised between iterations -/

theorem randContract_sel_merge (g : UGraph) (rs : ℕ → ℚ) (k fuel : ℕ) (st : KargerR)
    (pos : ℕ) (id : ℤ) (sel1 : Selector) (e : GEdge)
    (hf : fuel ≠ 0) (hord : st.ov.order > k)
    (hsel : st.sel.Select (rs pos) = some (id, sel1, none))
    (hfind : g.findEdge id = some e)
    (hnl : ¬ st.ov.label e.v = st.ov.label e.u) :
    randContract g rs k fuel st pos =
      randContract g rs k (fuel - 1) { st with ov := mergeEdge st.ov e, sel := sel1 }
        (pos + 1) := by
  rw [randContract, dif_neg hf, if_neg (not_not_intro hord)]
  simp only [hsel, hfind, if_neg hnl]

theorem fastRandMinCutLoop_succ (g : UGraph) (rs : ℕ → ℚ) (fuel n : ℕ) (st : KargerR)
    (pos : ℕ) (best : Option (List GEdge × ℚ)) (st1 : KargerR) (p1 : ℕ)
    (hn : n ≠ 0) (h : KargerR.fastRandMinCut g rs fuel st pos = some (st1, p1)) :
    fastRandMinCutLoop g rs fuel n st pos best =
      fastRandMinCutLoop g rs fuel (n - 1) st1 p1
        (match best with
          | none => some (st1.c, st1.w)
          | some bw => if st1.w < bw.2 then some (st1.c, st1.w) else some bw) := by
  rw [fastRandMinCutLoop, dif_neg hn, h]

/-- C1: evidence that `FastRandMinCut` does not re-initialise the
contraction context between iterations.  On `gPath` (freshly initialised
state: `order = 3`, `label[0] = 0`, selector root total `1`), the state
that the iteration loop of `FastRandMinCut` carries into its second
iteration — the result of the first `fastRandMinCut` call — has
`order = 2`, `label[0] = 1` and selector root total `0`: the sampler and
super-node overlay are still contracted, not freshly initialised. -/
theorem fastRandMinCut_no_reinit :
    (kargerInit gPath).ov.order = 3 ∧
      (kargerInit gPath).ov.label 0 = 0 ∧
      rootTotal (kargerInit gPath).sel = 1 ∧
      ∃ st1 : KargerR,
        KargerR.fastRandMinCut gPath rsZ 5 (kargerInit gPath) 0 = some (st1, 1) ∧
        st1.ov.order = 2 ∧ st1.ov.label 0 = 1 ∧ rootTotal st1.sel = 0 ∧
        FastRandMinCut gPath rsZ 2 5 = some (some ([], 0)) := by
  have hsel0 : (kargerInit gPath).sel = [⟨0, 1, 1⟩] := by
    norm_num [kargerInit, gPath, Selector.Init, setTotals, accumFrom_zero]
  have hSel : Selector.Select [⟨0, 1, 1⟩] (rsZ 0) = some (0, [⟨0, 0, 0⟩], none) := by
    rw [Selector.Select]
    norm_num [rsZ]
    rw [selDescend]
    norm_num
    rw [propagate]
    norm_num
    rw [propagate]
    norm_num
  have hstep1 : randContract gPath rsZ 2 5 (kargerInit gPath) 0 =
      randContract gPath rsZ 2 4
        { kargerInit gPath with
          ov := mergeEdge (kargerInit gPath).ov ⟨0, 0, 1, 1⟩,
          sel := [⟨0, 0, 0⟩] } 1 :=
    randContract_sel_merge gPath rsZ 2 5 (kargerInit gPath) 0 0 [⟨0, 0, 0⟩]
      ⟨0, 0, 1, 1⟩ (by norm_num) (by decide) (by rw [hsel0]; exact hSel) (by decide)
      (by decide)
  have hstop : randContract gPath rsZ 2 4
      { kargerInit gPath with
        ov := mergeEdge (kargerInit gPath).ov ⟨0, 0, 1, 1⟩,
        sel := [⟨0, 0, 0⟩] } 1 =
      some ({ kargerInit gPath with
        ov := mergeEdge (kargerInit gPath).ov ⟨0, 0, 1, 1⟩,
        sel := [⟨0, 0, 0⟩] }, 1) :=
    randContract_stop _ _ _ _ _ _ (by norm_num) (by decide)
  have hrmc : KargerR.fastRandMinCut gPath rsZ 5 (kargerInit gPath) 0 =
      some ({ kargerInit gPath with
        ov := mergeEdge (kargerInit gPath).ov ⟨0, 0, 1, 1⟩,
        sel := [⟨0, 0, 0⟩] }, 1) := by
    rw [fastRandMinCut_base gPath rsZ 5 (kargerInit gPath) 0 (by norm_num) (by decide)]
    unfold randCompact
    rw [hstep1, hstop]
    rfl
  have hrmc2 : KargerR.fastRandMinCut gPath rsZ 5
      { kargerInit gPath with
        ov := mergeEdge (kargerInit gPath).ov ⟨0, 0, 1, 1⟩,
        sel := [⟨0, 0, 0⟩] } 1 =
      some ({ kargerInit gPath with
        ov := mergeEdge (kargerInit gPath).ov ⟨0, 0, 1, 1⟩,
        sel := [⟨0, 0, 0⟩] }, 1) := by
    rw [fastRandMinCut_base _ _ _ _ _ (by norm_num) (by decide)]
    rw [randCompact_stop _ _ _ _ _ _ (by norm_num) (by decide)]
    rfl
  have hloop : FastRandMinCut gPath rsZ 2 5 = some (some ([], 0)) := by
    unfold FastRandMinCut
    rw [fastRandMinCutLoop_succ gPath rsZ 5 2 (kargerInit gPath) 0 none _ _
      (by norm_num) hrmc]
    show fastRandMinCutLoop gPath rsZ 5 1
      { kargerInit gPath with
        ov := mergeEdge (kargerInit gPath).ov ⟨0, 0, 1, 1⟩,
        sel := [⟨0, 0, 0⟩] } 1 (some ([], 0)) = some (some ([], 0))
    rw [fastRandMinCutLoop_succ gPath rsZ 5 1 _ 1 (some ([], 0)) _ _
      one_ne_zero hrmc2]
    show fastRandMinCutLoop gPath rsZ 5 0
      { kargerInit gPath with
        ov := mergeEdge (kargerInit gPath).ov ⟨0, 0, 1, 1⟩,
        sel := [⟨0, 0, 0⟩] } 1
      (if ((0 : ℚ) < 0) then some ([], 0) else some ([], 0)) = some (some ([], 0))
    rw [ite_self, fastRandMinCutLoop_zero]
  refine ⟨by decide, by decide, ?_, ?_⟩
  · rw [hsel0]
    norm_num [rootTotal]
  · refine ⟨{ kargerInit gPath with
      ov := mergeEdge (kargerInit gPath).ov ⟨0, 0, 1, 1⟩,
      sel := [⟨0, 0, 0⟩] }, hrmc, by decide, by decide, ?_, hloop⟩
    norm_num [rootTotal]

/-! ## C9: BuildUndirected error behaviour -/

theorem buildNodeEdges_cases (compact : Bool) :
    ∀ (es seen : List SrcEdge) (g : BGraph),
      (∀ e ∈ seen, 0 ≤ e.u ∧ 0 ≤ e.v) →
      (buildNodeEdges compact es seen g = .error GError.nodeIDOutOfRange ∧
          ∃ e ∈ es, e.u < 0 ∨ e.v < 0) ∨
        (∃ seen1 g1, buildNodeEdges compact es seen g = .ok (seen1, g1) ∧
          (∀ e ∈ seen1, 0 ≤ e.u ∧ 0 ≤ e.v) ∧ (∀ e ∈ es, 0 ≤ e.u ∧ 0 ≤ e.v)) := by
  intro es
  induction es with
  | nil =>
    intro seen g hinv
    right
    exact ⟨seen, g, rfl, hinv, by simp⟩
  | cons e rest ih =>
    intro seen g hinv
    by_cases hseen : e ∈ seen
    · have heq : buildNodeEdges compact (e :: rest) seen g =
          buildNodeEdges compact rest seen g := by
        simp [buildNodeEdges, hseen]
      rcases ih seen g hinv with ⟨herr, bad, hbadmem, hbadneg⟩ | ⟨s1, g1, hok, hinv1, hgood⟩
      · exact Or.inl ⟨heq ▸ herr, bad, List.mem_cons_of_mem _ hbadmem, hbadneg⟩
      · refine Or.inr ⟨s1, g1, heq ▸ hok, hinv1, ?_⟩
        intro e2 he2
        rcases List.mem_cons.mp he2 with rfl | h
        · exact hinv e2 hseen
        · exact hgood e2 h
    · by_cases hneg : e.u < 0 ∨ e.v < 0
      · left
        refine ⟨?_, e, List.mem_cons_self _ _, hneg⟩
        simp [buildNodeEdges, hseen, hneg]
      · have heq : buildNodeEdges compact (e :: rest) seen g =
            buildNodeEdges compact rest (e :: seen) (bNewEdge (addID (addID g e.u) e.v) compact e) := by
          simp [buildNodeEdges, hseen, hneg]
        have henn : 0 ≤ e.u ∧ 0 ≤ e.v := by omega
        have hinv2 : ∀ e2 ∈ e :: seen, 0 ≤ e2.u ∧ 0 ≤ e2.v := by
          intro e2 he2
          rcases List.mem_cons.mp he2 with rfl | h
          · exact henn
          · exact hinv e2 h
        rcases ih (e :: seen) (bNewEdge (addID (addID g e.u) e.v) compact e) hinv2 with
          ⟨herr, bad, hbadmem, hbadneg⟩ | ⟨s1, g1, hok, hinv1, hgood⟩
        · exact Or.inl ⟨heq ▸ herr, bad, List.mem_cons_of_mem _ hbadmem, hbadneg⟩
        · refine Or.inr ⟨s1, g1, heq ▸ hok, hinv1, ?_⟩
          intro e2 he2
          rcases List.mem_cons.mp he2 with rfl | h
          · exact henn
          · exact hgood e2 h

theorem buildUndirectedLoop_cases (compact : Bool) :
    ∀ (ns : List SrcNode) (seen : List SrcEdge) (g : BGraph),
      (∀ e ∈ seen, 0 ≤ e.u ∧ 0 ≤ e.v) →
      (buildUndirectedLoop compact ns seen g = .error GError.nodeIDOutOfRange ∧
          ∃ n ∈ ns, ∃ e ∈ n.edges, e.u < 0 ∨ e.v < 0) ∨
        (∃ g1, buildUndirectedLoop compact ns seen g = .ok g1 ∧
          ∀ n ∈ ns, ∀ e ∈ n.edges, 0 ≤ e.u ∧ 0 ≤ e.v) := by
  intro ns
  induction ns with
  | nil =>
    intro seen g hinv
    right
    exact ⟨g, rfl, by simp⟩
  | cons n rest ih =>
    intro seen g hinv
    rcases buildNodeEdges_cases compact n.edges seen (addID g n.nid) hinv with
      ⟨herr, bad, hbadmem, hbadneg⟩ | ⟨s1, g1, hok, hinv1, hgood⟩
    · left
      refine ⟨?_, n, List.mem_cons_self _ _, bad, hbadmem, hbadneg⟩
      simp only [buildUndirectedLoop, herr]
    · have heq : buildUndirectedLoop compact (n :: rest) seen g =
          buildUndirectedLoop compact rest s1 g1 := by
        simp only [buildUndirectedLoop, hok]
      rcases ih s1 g1 hinv1 with ⟨herr2, bad, hbadmem, hbads⟩ | ⟨g2, hok2, hgood2⟩
      · exact Or.inl ⟨heq ▸ herr2, bad, List.mem_cons_of_mem _ hbadmem, hbads⟩
      · refine Or.inr ⟨g2, heq ▸ hok2, ?_⟩
        intro n2 hn2
        rcases List.mem_cons.mp hn2 with rfl | h
        · exact fun e he => hgood e he
        · exact hgood2 n2 h

/-- C9 (amended): `BuildUndirected` fails — with `NodeIDOutOfRange` and
with no other error — exactly when some node's incident edge has a
negative endpoint id; when every edge endpoint id is non-negative it
returns a graph and no error.  The ids of edgeless source nodes are not
validated. -/
theorem buildUndirected_error_iff (ns : List SrcNode) (compact : Bool) :
    (BuildUndirected ns compact = .error GError.nodeIDOutOfRange ↔
        ∃ n ∈ ns, ∃ e ∈ n.edges, e.u < 0 ∨ e.v < 0) ∧
      ((∀ n ∈ ns, ∀ e ∈ n.edges, 0 ≤ e.u ∧ 0 ≤ e.v) →
        ∃ g1, BuildUndirected ns compact = .ok g1) ∧
      ∀ err, BuildUndirected ns compact = .error err → err = GError.nodeIDOutOfRange := by
  unfold BuildUndirected
  rcases buildUndirectedLoop_cases compact ns [] ⟨[], []⟩ (by simp) with
    ⟨herr, bad, hbadmem, bade, hbadedge, hbadneg⟩ | ⟨g1, hok, hgood⟩
  · refine ⟨⟨fun _ => ⟨bad, hbadmem, bade, hbadedge, hbadneg⟩, fun _ => herr⟩, ?_, ?_⟩
    · intro hgood
      have := hgood bad hbadmem bade hbadedge
      omega
    · intro err herr2
      rw [herr] at herr2
      injection herr2 with h
      exact h.symm
  · refine ⟨⟨?_, ?_⟩, fun _ => ⟨g1, hok⟩, ?_⟩
    · intro h
      rw [hok] at h
      exact absurd h (by simp)
    · rintro ⟨n, hn, e, he, hneg⟩
      have := hgood n hn e he
      omega
    · intro err herr2
      rw [hok] at herr2
      exact absurd herr2 (by simp)

theorem buildUndirected_error_iff_witness :
    (BuildUndirected [⟨5, [⟨0, 2, -3, 1, 0⟩]⟩] true = .error GError.nodeIDOutOfRange ↔
        ∃ n ∈ [(⟨5, [⟨0, 2, -3, 1, 0⟩]⟩ : SrcNode)], ∃ e ∈ n.edges, e.u < 0 ∨ e.v < 0) ∧
      ((∀ n ∈ [(⟨5, [⟨0, 2, -3, 1, 0⟩]⟩ : SrcNode)], ∀ e ∈ n.edges, 0 ≤ e.u ∧ 0 ≤ e.v) →
        ∃ g1, BuildUndirected [⟨5, [⟨0, 2, -3, 1, 0⟩]⟩] true = .ok g1) ∧
      ∀ err, BuildUndirected [⟨5, [⟨0, 2, -3, 1, 0⟩]⟩] true = .error err →
        err = GError.nodeIDOutOfRange :=
  buildUndirected_error_iff [⟨5, [⟨0, 2, -3, 1, 0⟩]⟩] true

/-- C9 counterexample to the claim as stated: a node set whose only
source node has the negative id `-1` but no edges builds successfully —
`BuildUndirected` returns a graph containing the node `-1` and no
`NodeIDOutOfRange` error, because only edge endpoint ids are checked. -/
theorem buildUndirected_negative_isolated_ok :
    (∃ n ∈ [(⟨-1, []⟩ : SrcNode)], n.nid < 0) ∧
      BuildUndirected [⟨-1, []⟩] true = .ok ⟨[-1], []⟩ := by
  constructor
  · exact ⟨⟨-1, []⟩, by simp, by norm_num⟩
  · rfl

/-! ## Faithfulness of the exact contraction target to the source's
`math.Ceil(float64(order)/sqrt2 + 1)` -/

theorem find?_range_first (p : ℕ → Bool) (N m : ℕ) (h : (List.range N).find? p = some m) :
    p m = true ∧ ∀ j < m, p j = false := by
  induction N with
  | zero => simp at h
  | succ k ih =>
    rw [List.range_succ, List.find?_append] at h
    cases hl : (List.range k).find? p with
    | some m2 =>
      rw [hl] at h
      simp only [Option.or_some] at h
      injection h with h
      subst h
      exact ih hl
    | none =>
      rw [hl] at h
      simp only [Option.none_or] at h
      rw [List.find?_eq_none] at hl
      simp only [List.find?_singleton] at h
      by_cases hp : p k
      · rw [if_pos hp] at h
        injection h with h
        subst h
        refine ⟨hp, ?_⟩
        intro j hj
        have := hl j (by simp [List.mem_range]; omega)
        simpa using this
      · rw [if_neg hp] at h
        simp at h

theorem ceilDivSqrt2_eq_ceil (n : ℕ) :
    (ceilDivSqrt2 n : ℤ) = ⌈(n : ℝ) / Real.sqrt 2⌉ := by
  have hs2 : (0 : ℝ) < Real.sqrt 2 := Real.sqrt_pos.mpr (by norm_num)
  unfold ceilDivSqrt2
  cases hf : (List.range (n + 1)).find? (fun m => decide (n ^ 2 ≤ 2 * m ^ 2)) with
  | none =>
    exfalso
    rw [List.find?_eq_none] at hf
    have := hf n (by simp)
    simp at this
    omega
  | some m =>
    simp only [Option.getD_some]
    obtain ⟨hpm, hmin⟩ := find?_range_first _ _ _ hf
    simp only [decide_eq_true_eq] at hpm
    symm
    rw [Int.ceil_eq_iff]
    constructor
    · push_cast
      rcases Nat.eq_zero_or_pos m with rfl | hm1
      · have : (0 : ℝ) ≤ (n : ℝ) / Real.sqrt 2 := by positivity
        linarith
      · have hj := hmin (m - 1) (by omega)
        simp only [decide_eq_false_iff_not] at hj
        have hj2 : 2 * ((m : ℕ) - 1 : ℕ) ^ 2 < n ^ 2 := by omega
        have hreal : Real.sqrt (2 * (((m : ℕ) - 1 : ℕ) : ℝ) ^ 2) < Real.sqrt ((n : ℝ) ^ 2) := by
          apply Real.sqrt_lt_sqrt (by positivity)
          exact_mod_cast hj2
        rw [Real.sqrt_sq (by positivity)] at hreal
        have hleft : Real.sqrt (2 * (((m : ℕ) - 1 : ℕ) : ℝ) ^ 2) =
            Real.sqrt 2 * (((m : ℕ) - 1 : ℕ) : ℝ) := by
          rw [Real.sqrt_mul (by norm_num), Real.sqrt_sq (by positivity)]
        rw [hleft] at hreal
        rw [lt_div_iff₀ hs2]
        have hcast : (((m : ℕ) - 1 : ℕ) : ℝ) = (m : ℝ) - 1 := by
          push_cast [Nat.cast_sub hm1]
          ring
        rw [hcast] at hreal
        linarith [mul_comm (Real.sqrt 2) ((m : ℝ) - 1)]
    · rw [div_le_iff₀ hs2]
      have hreal : Real.sqrt ((n : ℝ) ^ 2) ≤ Real.sqrt (2 * (m : ℝ) ^ 2) := by
        apply Real.sqrt_le_sqrt
        exact_mod_cast hpm
      rw [Real.sqrt_sq (by positivity)] at hreal
      have hright : Real.sqrt (2 * (m : ℝ) ^ 2) = Real.sqrt 2 * (m : ℝ) := by
        rw [Real.sqrt_mul (by norm_num), Real.sqrt_sq (by positivity)]
      rw [hright] at hreal
      push_cast
      linarith [mul_comm (Real.sqrt 2) (m : ℝ)]

theorem contractTarget_eq_ceil (n : ℕ) :
    (contractTarget n : ℤ) = ⌈(n : ℝ) / Real.sqrt 2 + 1⌉ := by
  unfold contractTarget
  rw [Int.ceil_add_one, ← ceilDivSqrt2_eq_ceil]
  push_cast
  ring
